import Mathlib

/-!
Verification of the `config_sort` hierarchical configuration sorter
(`library/configsort.py`).

The Python module parses a flat list of indented configuration lines into a
forest of `Lineobj` nodes (text, indent, children), deduplicating repeated
lines at the same hierarchy position, and flattens the forest back into a
line sequence with every sibling group sorted by line text.

The embedding below is a faithful shallow embedding of that module:

* Python mutates `Lineobj` objects in place and keeps a stack (`currlevel`)
  of references into the tree under construction.  We model the same state
  as a zipper: the stack holds, for each open ancestor, the current value of
  the node together with its index in its parent's `subs` list (for the
  bottom entry: its index in the registry).  Popping a stack entry writes
  the node back at its recorded index (`flushAux`), which is exactly what
  object aliasing achieves in Python.  All reads of a node's `subs` happen
  at the top of the stack, after deeper entries have been written back, so
  the zipper state is observationally identical to the Python heap.
* Python's string comparison is codepoint-wise lexicographic; we implement
  it directly on character lists (`charListLt`) so that all definitions are
  executable by the kernel, and prove it equivalent to Mathlib's order on
  `String`.
* `sorted(lines, key=lambda k: k.text)` is modelled by a stable insertion
  sort (`sortNodes`); sibling texts are pairwise distinct in every list the
  module sorts, and both sorts are stable, so the results agree.
* File I/O in `module_main` is out of scope; the function is modelled as a
  pure map from the source lines, the (optional) existing destination
  lines, and the check-mode flag to the reported result.
-/

/-- Codepoint-wise lexicographic strict comparison of character lists.
This is how Python compares `str` values (`k.text` in `sorted(...)`). -/
def charListLt : List Char → List Char → Bool
  | _, [] => false
  | [], _ :: _ => true
  | a :: as, b :: bs =>
    if a < b then true
    else if b < a then false
    else charListLt as bs

/-- Python's `s < t` on strings. -/
def textLt (s t : String) : Bool := charListLt s.toList t.toList

/-- Python's `s <= t` on strings. -/
def textLe (s t : String) : Bool := !(textLt t s)

/-- The order used on plain strings when we describe sorted output. -/
def strLe (s t : String) : Prop := textLe s t = true

instance : DecidableRel strLe := fun _ _ => inferInstanceAs (Decidable (_ = true))

/-- The tree node of `configsort.py` (`class Lineobj`): the verbatim line
text, the number of leading spaces (`len(line) - len(line.lstrip(' '))`),
and the list of sub lines.  The Python `parent` attribute is written once
to `None` and never used, so it is omitted. -/
structure Lineobj where
  text : String
  indent : Nat
  subs : List Lineobj

mutual
def nodeDecEq : (a b : Lineobj) → Decidable (a = b)
  | ⟨t1, i1, s1⟩, ⟨t2, i2, s2⟩ =>
    if h1 : t1 = t2 then
      if h2 : i1 = i2 then
        match forestDecEq s1 s2 with
        | isTrue h3 => isTrue (by rw [h1, h2, h3])
        | isFalse h3 => isFalse (fun h => h3 (by injection h))
      else isFalse (fun h => h2 (by injection h))
    else isFalse (fun h => h1 (by injection h))
def forestDecEq : (a b : List Lineobj) → Decidable (a = b)
  | [], [] => isTrue rfl
  | [], _ :: _ => isFalse (fun h => List.noConfusion h)
  | _ :: _, [] => isFalse (fun h => List.noConfusion h)
  | a :: as, b :: bs =>
    match nodeDecEq a b, forestDecEq as bs with
    | isTrue h1, isTrue h2 => isTrue (by rw [h1, h2])
    | isFalse h1, _ => isFalse (fun h => h1 (by injection h))
    | isTrue _, isFalse h2 => isFalse (fun h => h2 (by injection h))
end

instance : DecidableEq Lineobj := nodeDecEq

mutual
/-- Number of nodes of a tree (used only as recursion fuel for the
flattening function, which recurses into a freshly sorted list). -/
def nodeSize : Lineobj → Nat
  | ⟨_, _, subs⟩ => 1 + forestSize subs
def forestSize : List Lineobj → Nat
  | [] => 0
  | n :: ns => nodeSize n + forestSize ns
end

/-- The comparison `sorted(lines, key=lambda k: k.text)` sorts by. -/
def nodeLe (a b : Lineobj) : Prop := textLe a.text b.text = true

instance : DecidableRel nodeLe := fun _ _ => inferInstanceAs (Decidable (_ = true))

/-- `sorted(lines, key=lambda k: k.text)`: a stable sort by text. -/
def sortNodes (l : List Lineobj) : List Lineobj := List.insertionSort nodeLe l

/-- Sorting plain strings by the same order (used to state results). -/
def sortStrings (l : List String) : List String := List.insertionSort strLe l

/-- `len(line) - len(line.lstrip(' '))`: the count of leading spaces. -/
def pyIndent (s : String) : Nat := (s.toList.takeWhile (fun c => c == ' ')).length

/-- ASCII whitespace stripped by Python's `str.strip()`. -/
def isPySpace (c : Char) : Bool :=
  c == ' ' || c == '\t' || c == '\n' || c == '\r' || c == '\x0b' || c == '\x0c'

/-- `line.strip() == ''`: the line is empty after stripping whitespace. -/
def isBlank (s : String) : Bool := s.toList.all isPySpace

/-- `line.startswith(' ')`. -/
def startsWithSpace (s : String) : Bool :=
  match s.toList with
  | [] => false
  | c :: _ => c == ' '

/-- `Lineobj(line)`: text is the line itself, indent is the count of
leading spaces, no subs yet. -/
def Lineobj.mkLine (line : String) : Lineobj := ⟨line, pyIndent line, []⟩

/-- The loop body of `Lineobj.add_sub` on the `subs` list: return the
updated list, the node that is logically present after the call (the
existing sub with equal text, if any, else the appended node), and its
index in the updated list. -/
def addSubList : List Lineobj → Lineobj → List Lineobj × Lineobj × Nat
  | [], l => ([l], l, 0)
  | s :: rest, l =>
    if s.text == l.text then (s :: rest, s, 0)
    else
      let r := addSubList rest l
      (s :: r.1, r.2.1, r.2.2 + 1)

/-- `Lineobj.add_sub`: if a sub with the same text exists, return it and
leave `subs` unchanged; otherwise append the new node and return it.  The
first component is the updated parent, the second the returned node, the
third its index in the parent's `subs` (bookkeeping for the zipper). -/
def Lineobj.add_sub (p l : Lineobj) : Lineobj × Lineobj × Nat :=
  let r := addSubList p.subs l
  (⟨p.text, p.indent, r.1⟩, r.2.1, r.2.2)

/-- The mutable state of `sort_config`: the registry `lines` (top-level
nodes in first-insertion order, keyed by their text) and the `currlevel`
stack.  The stack is stored top-first; each entry carries the current
value of the open node and the index where it must be written back
(into its parent's `subs`, or, for the bottom entry, into the registry). -/
structure BState where
  registry : List Lineobj
  stack : List (Lineobj × Nat)
deriving DecidableEq

/-- The loop of `insert_sub`, iterating from the top of `currlevel`
downwards: pop (write back) every entry whose indent is `>=` the new
line's indent; at the first entry with a strictly smaller indent, attach
the line via `add_sub` and push the returned node.  If the stack runs
out, the line is dropped. -/
def insertAux (l : Lineobj) (reg : List Lineobj) :
    Lineobj → Nat → List (Lineobj × Nat) → List Lineobj × List (Lineobj × Nat)
  | n, i, rest =>
    if l.indent ≤ n.indent then
      match rest with
      | [] => (reg.set i n, [])
      | (p, j) :: r => insertAux l reg ⟨p.text, p.indent, p.subs.set i n⟩ j r
    else
      let r := n.add_sub l
      (reg, (r.2.1, r.2.2) :: (r.1, i) :: rest)

/-- `insert_sub(currlevel, lineobj)`.  On an empty stack the loop body
never runs and the line is silently dropped. -/
def insert_sub (st : BState) (l : Lineobj) : BState :=
  match st.stack with
  | [] => st
  | (n, i) :: rest =>
    let r := insertAux l st.registry n i rest
    ⟨r.1, r.2⟩

/-- Write the whole pending stack back into the registry (in Python this
is implicit: stack entries alias the registry trees). -/
def flushAux (reg : List Lineobj) : Lineobj → Nat → List (Lineobj × Nat) → List Lineobj
  | n, i, [] => reg.set i n
  | n, i, (p, j) :: rest => flushAux reg ⟨p.text, p.indent, p.subs.set i n⟩ j rest

/-- Write the whole pending stack back into the registry. -/
def flushStack (reg : List Lineobj) : List (Lineobj × Nat) → List Lineobj
  | [] => reg
  | (n, i) :: rest => flushAux reg n i rest

/-- `lines.get(line, Lineobj(line))` followed by `lines[line] = lineobj`
for a top-level line: look the text up in the registry; on a hit return
the existing node (and its index), otherwise append a fresh node.  This
is only called for lines that do not start with a space, so the dict is
keyed exactly by top-level texts. -/
def registryLookupInsert : List Lineobj → String → List Lineobj × Lineobj × Nat
  | [], t => ([Lineobj.mkLine t], Lineobj.mkLine t, 0)
  | m :: ms, t =>
    if m.text == t then (m :: ms, m, 0)
    else
      let r := registryLookupInsert ms t
      (m :: r.1, r.2.1, r.2.2 + 1)

/-- The body of the `for line in config` loop of `sort_config`.  Blank
lines are skipped; an indented line goes through `insert_sub`; any other
line becomes (or re-opens) a top-level registry entry and resets the
stack to just that node.  For an indented line the registry lookup in the
source always misses (registry keys never start with a space), so the
fresh `Lineobj(line)` is used directly. -/
def step (st : BState) (line : String) : BState :=
  if isBlank line then st
  else if startsWithSpace line then
    insert_sub st (Lineobj.mkLine line)
  else
    let reg := flushStack st.registry st.stack
    let r := registryLookupInsert reg line
    ⟨r.1, [(r.2.1, r.2.2)]⟩

/-- The builder loop of `sort_config` over the whole input. -/
def runBuild (config : List String) : BState := config.foldl step ⟨[], []⟩

/-- The forest `lines.values()` at the end of the builder loop. -/
def buildForest (config : List String) : List Lineobj :=
  flushStack (runBuild config).registry (runBuild config).stack

/-- `get_config` with explicit structural fuel (any fuel above the number
of nodes gives the same answer). -/
def getConfigFuel : Nat → List Lineobj → List String
  | 0, _ => []
  | fuel + 1, lines =>
    (sortNodes lines).flatMap (fun l => l.text :: getConfigFuel fuel l.subs)

/-- `get_config(lines)`: sort the sibling group by text; for each node in
that order emit its text followed by the flattening of its own subs. -/
def get_config (lines : List Lineobj) : List String :=
  getConfigFuel (forestSize lines + 1) lines

/-- `sort_config(config)`: build the forest, then flatten it. -/
def sort_config (config : List String) : List String := get_config (buildForest config)

/-- `''.join(lines)`. -/
def strJoin : List String → String
  | [] => ""
  | s :: rest => s ++ strJoin rest

/-- The observable outcome of `module_main`: the reported `changed` flag,
whether a diff payload is attached, whether the destination was written,
and the destination content after the call. -/
structure CsResult where
  changed : Bool
  diffShown : Bool
  wrote : Bool
  destAfter : List String
deriving DecidableEq

/-- `module_main`, modelled at the file-I/O boundary: `srcLines` is what
`readlines()` returns for the source, `destLines` is the existing
destination content (`none` when the file does not exist, in which case
the source uses `[]`), `checkMode` is `module.check_mode`. -/
def module_main (srcLines : List String) (destLines : Option (List String))
    (checkMode : Bool) : CsResult :=
  let sorted_config := sort_config srcLines
  let old_sorted_config := match destLines with
    | some ls => ls
    | none => []
  if strJoin sorted_config == strJoin old_sorted_config then
    ⟨false, false, false, old_sorted_config⟩
  else if checkMode then
    ⟨true, true, false, old_sorted_config⟩
  else
    ⟨true, true, true, sorted_config⟩

/-- First-occurrence deduplication of a list of lines, relative to a list
of already-seen lines (used to state the dedup claim, following the
spec's words: the union, deduplicated, of the children). -/
def dedupSeen : List String → List String → List String
  | _, [] => []
  | seen, x :: xs =>
    if seen.contains x then dedupSeen seen xs
    else x :: dedupSeen (seen ++ [x]) xs

/-- First-occurrence deduplication of a list of lines. -/
def dedupKeepFirst (l : List String) : List String := dedupSeen [] l

/-- Repeatedly `add_sub` fresh nodes for the given lines into a sibling
list (the effect of attaching a run of same-depth children). -/
def addLeaves (s : List Lineobj) (cs : List String) : List Lineobj :=
  cs.foldl (fun acc c => (addSubList acc (Lineobj.mkLine c)).1) s

/-- Structural well-formedness of a built node: its indent is the leading
space count of its text, its text is not blank, its children's texts are
pairwise distinct, and every child is strictly more indented (hence the
parent/child relation is acyclic and flattening is well founded). -/
inductive Good : Lineobj → Prop where
  | node (t : String) (i : Nat) (subs : List Lineobj) :
      i = pyIndent t →
      isBlank t = false →
      (subs.map Lineobj.text).Nodup →
      (∀ s ∈ subs, i < s.indent) →
      (∀ s ∈ subs, Good s) →
      Good ⟨t, i, subs⟩

/-- `MemText x n`: `x` is the text of `n` or of one of its descendants. -/
inductive MemText : String → Lineobj → Prop where
  | here (n : Lineobj) : MemText n.text n
  | there (x : String) (n s : Lineobj) : s ∈ n.subs → MemText x s → MemText x n

/-- Invariant of a fully flushed registry: distinct top-level texts, all
trees well formed, all roots at indent 0. -/
def BaseInv (reg : List Lineobj) : Prop :=
  (reg.map Lineobj.text).Nodup ∧ ∀ n ∈ reg, Good n ∧ n.indent = 0

/-- Invariant of the zipper stack below one open entry `(n, i)`: the open
node is well formed, it is strictly more indented than its parent, its
recorded index points at a stale copy with the same text and indent, and
after writing `n` back the same holds one level down (for the bottom
entry: writing back yields a registry satisfying `BaseInv`). -/
def StackInvAux (reg : List Lineobj) : Lineobj → Nat → List (Lineobj × Nat) → Prop
  | n, i, [] =>
      Good n ∧ i < reg.length ∧
      (reg.getD i ⟨"", 0, []⟩).text = n.text ∧
      (reg.getD i ⟨"", 0, []⟩).indent = n.indent ∧
      BaseInv (reg.set i n)
  | n, i, (p, j) :: rest =>
      Good n ∧ p.indent < n.indent ∧ i < p.subs.length ∧
      (p.subs.getD i ⟨"", 0, []⟩).text = n.text ∧
      (p.subs.getD i ⟨"", 0, []⟩).indent = n.indent ∧
      StackInvAux reg ⟨p.text, p.indent, p.subs.set i n⟩ j rest

/-- Invariant of the whole builder state. -/
def StInv (st : BState) : Prop :=
  match st.stack with
  | [] => BaseInv st.registry
  | (n, i) :: rest => StackInvAux st.registry n i rest

/-- Shape of the builder state while a run of children of equal indent
`d` is being attached under a single top-level node `⟨t, 0, σ⟩`: either
the stack is just the root, or it is the root with one child of the
current run on top (recorded at its index in `σ`). -/
def MidStack (t : String) (d : Nat) (σ : List Lineobj) (s : List (Lineobj × Nat)) : Prop :=
  s = [(⟨t, 0, σ⟩, 0)] ∨
    ∃ x jdx, σ[jdx]? = some x ∧ x.indent = d ∧
      s = [(x, jdx), (⟨t, 0, σ⟩, 0)]

/-- The bottom (oldest) frame of the zipper stack writes back to registry
index `k` and holds a node with text `tx` at indent 0 (a top-level root).
A line with positive indent can never pop such a frame, so during a run
of indented lines the registry is untouched and the stack evolution does
not depend on the registry at all. -/
def BotFrame (tx : String) (k : Nat) : List (Lineobj × Nat) → Prop
  | [] => False
  | [(n, j)] => j = k ∧ n.text = tx ∧ n.indent = 0
  | _ :: r => BotFrame tx k r

/-- Add `d` to the registry index recorded in the bottom frame of a
stack: the stack as it would be if the registry had `d` extra entries in
front (the embedding of running the same builder after `d` earlier
top-level blocks). -/
def shiftBot (d : Nat) : List (Lineobj × Nat) → List (Lineobj × Nat)
  | [] => []
  | [(n, j)] => [(n, j + d)]
  | f :: r => f :: shiftBot d r

theorem charListLt_iff_lex (as bs : List Char) :
    charListLt as bs = true ↔ List.Lex (· < ·) as bs := by
  induction as generalizing bs with
  | nil =>
    cases bs with
    | nil =>
      simp only [charListLt, Bool.false_eq_true, false_iff]
      intro h; cases h
    | cons b bs => simp only [charListLt, true_iff]; exact List.Lex.nil
  | cons a as ih =>
    cases bs with
    | nil =>
      simp only [charListLt, Bool.false_eq_true, false_iff]
      intro h; cases h
    | cons b bs =>
      simp only [charListLt]
      rcases lt_trichotomy a b with h | h | h
      · rw [if_pos h]
        simp only [true_iff]
        exact List.Lex.rel h
      · subst h
        rw [if_neg (lt_irrefl a), if_neg (lt_irrefl a)]
        constructor
        · intro hh; exact List.Lex.cons ((ih bs).mp hh)
        · intro hh
          cases hh with
          | cons hh => exact (ih bs).mpr hh
          | rel hh => exact absurd hh (lt_irrefl a)
      · rw [if_neg (not_lt_of_gt h), if_pos h]
        simp only [Bool.false_eq_true, false_iff]
        intro hh
        cases hh with
        | cons hh => exact absurd rfl (ne_of_gt h)
        | rel hh => exact absurd hh (not_lt_of_gt h)

theorem textLt_iff (s t : String) : textLt s t = true ↔ s < t := by
  rw [textLt, charListLt_iff_lex, String.lt_iff_toList_lt]
  exact Iff.rfl

theorem textLe_iff (s t : String) : textLe s t = true ↔ s ≤ t := by
  rw [textLe, Bool.not_eq_true', ← Bool.not_eq_true, textLt_iff]
  exact not_lt

theorem nodeLe_total (a b : Lineobj) : nodeLe a b ∨ nodeLe b a := by
  simp only [nodeLe, textLe_iff]
  exact le_total a.text b.text

theorem nodeLe_trans {a b c : Lineobj} (hab : nodeLe a b) (hbc : nodeLe b c) : nodeLe a c := by
  simp only [nodeLe, textLe_iff] at *
  exact le_trans hab hbc

theorem strLe_total (a b : String) : strLe a b ∨ strLe b a := by
  simp only [strLe, textLe_iff]
  exact le_total a b

theorem strLe_trans {a b c : String} (hab : strLe a b) (hbc : strLe b c) : strLe a c := by
  simp only [strLe, textLe_iff] at *
  exact le_trans hab hbc

theorem sortNodes_sorted (l : List Lineobj) : List.Sorted nodeLe (sortNodes l) := by
  haveI : IsTotal Lineobj nodeLe := ⟨nodeLe_total⟩
  haveI : IsTrans Lineobj nodeLe := ⟨fun _ _ _ => nodeLe_trans⟩
  exact List.sorted_insertionSort nodeLe l

theorem sortNodes_perm (l : List Lineobj) : List.Perm (sortNodes l) l :=
  List.perm_insertionSort nodeLe l

theorem mem_sortNodes {l : List Lineobj} {x : Lineobj} : x ∈ sortNodes l ↔ x ∈ l :=
  List.mem_insertionSort nodeLe

theorem nodeSize_def (t : String) (i : Nat) (subs : List Lineobj) :
    nodeSize ⟨t, i, subs⟩ = 1 + forestSize subs := by
  simp [nodeSize]

theorem forestSize_cons (n : Lineobj) (ns : List Lineobj) :
    forestSize (n :: ns) = nodeSize n + forestSize ns := by
  simp [forestSize]

theorem nodeSize_le_of_mem {lines : List Lineobj} {l : Lineobj} (h : l ∈ lines) :
    nodeSize l ≤ forestSize lines := by
  induction lines with
  | nil => cases h
  | cons n ns ih =>
    rcases List.mem_cons.mp h with h | h
    · subst h; rw [forestSize_cons]; exact Nat.le_add_right _ _
    · rw [forestSize_cons]; exact le_trans (ih h) (Nat.le_add_left _ _)

theorem forestSize_subs_lt (l : Lineobj) : forestSize l.subs < nodeSize l := by
  cases l with
  | mk t i subs =>
    show forestSize subs < nodeSize ⟨t, i, subs⟩
    rw [nodeSize_def]; omega

theorem flatMap_congr_mem {α β : Type} (ls : List α) (f g : α → List β)
    (h : ∀ x ∈ ls, f x = g x) : ls.flatMap f = ls.flatMap g := by
  induction ls with
  | nil => rfl
  | cons a as ih =>
    simp only [List.flatMap_cons]
    rw [h a (List.mem_cons_self a as), ih (fun x hx => h x (List.mem_cons_of_mem a hx))]

theorem getConfigFuel_congr :
    ∀ (f g : Nat) (lines : List Lineobj), forestSize lines < f → forestSize lines < g →
      getConfigFuel f lines = getConfigFuel g lines := by
  intro f
  induction f with
  | zero => intro g lines h1 _; omega
  | succ f ih =>
    intro g lines h1 h2
    cases g with
    | zero => omega
    | succ g =>
      simp only [getConfigFuel]
      apply flatMap_congr_mem
      intro l hl
      have hmem : l ∈ lines := mem_sortNodes.mp hl
      have h3 : forestSize l.subs < forestSize lines :=
        lt_of_lt_of_le (forestSize_subs_lt l) (nodeSize_le_of_mem hmem)
      rw [ih g l.subs (by omega) (by omega)]

theorem get_config_eq (lines : List Lineobj) :
    get_config lines = (sortNodes lines).flatMap (fun l => l.text :: get_config l.subs) := by
  show getConfigFuel (forestSize lines + 1) lines = _
  simp only [getConfigFuel]
  apply flatMap_congr_mem
  intro l hl
  have hmem : l ∈ lines := mem_sortNodes.mp hl
  have h3 : forestSize l.subs < forestSize lines :=
    lt_of_lt_of_le (forestSize_subs_lt l) (nodeSize_le_of_mem hmem)
  rw [getConfigFuel_congr (forestSize lines) (forestSize l.subs + 1) l.subs (by omega) (by omega)]
  rfl

theorem get_config_nil : get_config ([] : List Lineobj) = [] := rfl

/-- C1: flattening (`get_config`) emits every sibling group sorted by line
text in codepoint-lexicographic order (case sensitive), emitting each
node's text immediately followed by the flattening of its own children
before moving to the next sibling, recursively at every level, and an
empty forest yields empty output.  The first conjunct is the recursive
emission equation; the second and third state that the emission order of
a sibling group is a sorted permutation of that group; the last relates
the sort order to codepoint-lexicographic comparison of the texts. -/
theorem get_config_spec (lines : List Lineobj) :
    get_config lines = (sortNodes lines).flatMap (fun l => l.text :: get_config l.subs) ∧
    List.Sorted nodeLe (sortNodes lines) ∧
    List.Perm (sortNodes lines) lines ∧
    get_config ([] : List Lineobj) = [] ∧
    (∀ a b : Lineobj, nodeLe a b ↔ ¬ List.Lex (· < ·) b.text.toList a.text.toList) := by
  refine ⟨get_config_eq lines, sortNodes_sorted lines, sortNodes_perm lines, rfl, ?_⟩
  intro a b
  rw [nodeLe, textLe, Bool.not_eq_true', ← Bool.not_eq_true, textLt, charListLt_iff_lex]

theorem addSubList_of_not_found (subs : List Lineobj) (l : Lineobj)
    (h : ∀ s ∈ subs, s.text ≠ l.text) :
    addSubList subs l = (subs ++ [l], l, subs.length) := by
  induction subs with
  | nil => rfl
  | cons s rest ih =>
    have hs : (s.text == l.text) = false :=
      beq_eq_false_iff_ne.mpr (h s (List.mem_cons_self s rest))
    simp only [addSubList, hs, Bool.false_eq_true, if_false]
    rw [ih (fun x hx => h x (List.mem_cons_of_mem s hx))]
    simp [List.length_cons]

theorem addSubList_of_find (subs : List Lineobj) (l s : Lineobj)
    (h : subs.find? (fun x => x.text == l.text) = some s) :
    (addSubList subs l).1 = subs ∧ (addSubList subs l).2.1 = s := by
  induction subs with
  | nil => simp [List.find?_nil] at h
  | cons c rest ih =>
    by_cases hc : (c.text == l.text) = true
    · rw [List.find?_cons, hc] at h
      injection h with h
      subst h
      simp [addSubList, hc]
    · have hc' : (c.text == l.text) = false := by simpa using hc
      rw [List.find?_cons, hc'] at h
      have := ih h
      simp only [addSubList, hc, Bool.false_eq_true, if_false]
      exact ⟨by rw [this.1], this.2⟩

theorem addSubList_get (subs : List Lineobj) (l : Lineobj) :
    (addSubList subs l).1.get? (addSubList subs l).2.2 = some (addSubList subs l).2.1 ∧
    (addSubList subs l).2.2 < (addSubList subs l).1.length := by
  induction subs with
  | nil => simp [addSubList]
  | cons s rest ih =>
    by_cases hs : (s.text == l.text) = true
    · simp [addSubList, hs]
    · simp only [addSubList, hs, Bool.false_eq_true, if_false]
      exact ⟨by simpa using ih.1, by simpa using ih.2⟩

theorem addSubList_cases (subs : List Lineobj) (l : Lineobj) :
    ((addSubList subs l).1 = subs ++ [l] ∧ (addSubList subs l).2.1 = l ∧
      ∀ s ∈ subs, s.text ≠ l.text) ∨
    ((addSubList subs l).1 = subs ∧ (addSubList subs l).2.1 ∈ subs ∧
      (addSubList subs l).2.1.text = l.text) := by
  induction subs with
  | nil =>
    left
    refine ⟨rfl, rfl, ?_⟩
    intro s hs
    cases hs
  | cons s rest ih =>
    by_cases hs : (s.text == l.text) = true
    · right
      have hseq : s.text = l.text := beq_iff_eq.mp hs
      refine ⟨?_, ?_, ?_⟩ <;> simp [addSubList, hs, hseq]
    · rcases ih with ⟨h1, h2, h3⟩ | ⟨h1, h2, h3⟩
      · left
        simp only [addSubList, hs, Bool.false_eq_true, if_false]
        refine ⟨by rw [h1]; rfl, h2, ?_⟩
        intro x hx
        rcases List.mem_cons.mp hx with hx | hx
        · subst hx; exact (beq_eq_false_iff_ne.mp (Bool.not_eq_true _ ▸ hs))
        · exact h3 x hx
      · right
        simp only [addSubList, hs, Bool.false_eq_true, if_false]
        exact ⟨by rw [h1], List.mem_cons_of_mem s h2, h3⟩

theorem addSubList_nodup (subs : List Lineobj) (l : Lineobj)
    (h : (subs.map Lineobj.text).Nodup) :
    (((addSubList subs l).1).map Lineobj.text).Nodup := by
  rcases addSubList_cases subs l with ⟨h1, _, h3⟩ | ⟨h1, _, _⟩
  · rw [h1, List.map_append, List.map_singleton]
    rw [List.nodup_append]
    refine ⟨h, List.nodup_singleton _, ?_⟩
    intro x hx
    simp only [List.mem_singleton]
    obtain ⟨s, hs, hsx⟩ := List.mem_map.mp hx
    intro hxl
    exact h3 s hs (by rw [hsx, hxl])
  · rw [h1]; exact h

/-- C5: `add_sub(lineobj)`: if the receiver's `subs` already contains a
node with the same text, the call returns that existing node and leaves
`subs` (and hence the existing node's subtree) unchanged; otherwise it
appends the node to `subs` and returns it.  Consequently distinctness of
the texts of one parent's children is preserved. -/
theorem add_sub_spec (p l : Lineobj) :
    (p.subs.find? (fun x => x.text == l.text) = none →
      p.add_sub l = (⟨p.text, p.indent, p.subs ++ [l]⟩, l, p.subs.length)) ∧
    (∀ s, p.subs.find? (fun x => x.text == l.text) = some s →
      (p.add_sub l).1 = p ∧ (p.add_sub l).2.1 = s) ∧
    ((p.subs.map Lineobj.text).Nodup →
      (((p.add_sub l).1).subs.map Lineobj.text).Nodup) := by
  obtain ⟨pt, pi, ps⟩ := p
  refine ⟨?_, ?_, ?_⟩
  · intro h
    have hne : ∀ s ∈ ps, s.text ≠ l.text := by
      intro s hs
      have := List.find?_eq_none.mp h s hs
      exact fun hc => this (beq_iff_eq.mpr hc)
    have hadd := addSubList_of_not_found ps l hne
    simp only [Lineobj.add_sub, hadd]
  · intro s h
    have hadd := addSubList_of_find ps l s h
    constructor
    · show (⟨pt, pi, (addSubList ps l).1⟩ : Lineobj) = ⟨pt, pi, ps⟩
      rw [hadd.1]
    · exact hadd.2
  · intro h
    exact addSubList_nodup ps l h

/-- C5 witness: adding a new child appends it and returns it; adding a
child whose text is already present leaves the parent unchanged. -/
theorem add_sub_spec_witness :
    (Lineobj.mk "a" 0 [⟨" b", 1, []⟩]).add_sub ⟨" c", 1, []⟩ =
      (⟨"a", 0, [⟨" b", 1, []⟩, ⟨" c", 1, []⟩]⟩, ⟨" c", 1, []⟩, 1) ∧
    ((Lineobj.mk "a" 0 [⟨" b", 1, []⟩]).add_sub ⟨" b", 1, [⟨"  z", 2, []⟩]⟩).1 =
      ⟨"a", 0, [⟨" b", 1, []⟩]⟩ :=
  ⟨(add_sub_spec ⟨"a", 0, [⟨" b", 1, []⟩]⟩ ⟨" c", 1, []⟩).1 (by decide),
   ((add_sub_spec ⟨"a", 0, [⟨" b", 1, []⟩]⟩ ⟨" b", 1, [⟨"  z", 2, []⟩]⟩).2.1
      ⟨" b", 1, []⟩ (by decide)).1⟩

theorem insertAux_pop_nil (l : Lineobj) (reg : List Lineobj) (n : Lineobj) (i : Nat)
    (h : l.indent ≤ n.indent) : insertAux l reg n i [] = (reg.set i n, []) := by
  rw [insertAux.eq_def]
  dsimp only
  rw [if_pos h]

theorem insertAux_pop_cons (l : Lineobj) (reg : List Lineobj) (n : Lineobj) (i : Nat)
    (p : Lineobj) (j : Nat) (r : List (Lineobj × Nat)) (h : l.indent ≤ n.indent) :
    insertAux l reg n i ((p, j) :: r) =
      insertAux l reg ⟨p.text, p.indent, p.subs.set i n⟩ j r := by
  rw [insertAux.eq_def]
  dsimp only
  rw [if_pos h]

theorem insertAux_push (l : Lineobj) (reg : List Lineobj) (n : Lineobj) (i : Nat)
    (rest : List (Lineobj × Nat)) (h : ¬ l.indent ≤ n.indent) :
    insertAux l reg n i rest =
      (reg, ((n.add_sub l).2.1, (n.add_sub l).2.2) :: ((n.add_sub l).1, i) :: rest) := by
  rw [insertAux.eq_def]
  dsimp only
  rw [if_neg h]

theorem insertAux_drop_all (l : Lineobj) (rest : List (Lineobj × Nat)) :
    ∀ (reg : List Lineobj) (n : Lineobj) (i : Nat),
      l.indent ≤ n.indent → (∀ f ∈ rest, l.indent ≤ f.1.indent) →
      insertAux l reg n i rest = (flushAux reg n i rest, []) := by
  induction rest with
  | nil =>
    intro reg n i hn _
    rw [insertAux_pop_nil l reg n i hn, flushAux]
  | cons pj r ih =>
    obtain ⟨p, j⟩ := pj
    intro reg n i hn hr
    rw [insertAux_pop_cons l reg n i p j r hn, flushAux]
    exact ih reg ⟨p.text, p.indent, p.subs.set i n⟩ j
      (hr (p, j) (List.mem_cons_self _ _)) (fun f hf => hr f (List.mem_cons_of_mem _ hf))

theorem insertAux_attach (l : Lineobj) (rest : List (Lineobj × Nat)) :
    ∀ (reg : List Lineobj) (n : Lineobj) (i : Nat) (m : Lineobj) (k : Nat)
      (kept : List (Lineobj × Nat)),
      ((n, i) :: rest).dropWhile (fun f => decide (l.indent ≤ f.1.indent)) = (m, k) :: kept →
      m.indent < l.indent ∧
      ∃ m' : Lineobj, m'.text = m.text ∧ m'.indent = m.indent ∧
        insertAux l reg n i rest =
          (reg, ((m'.add_sub l).2.1, (m'.add_sub l).2.2) :: ((m'.add_sub l).1, k) :: kept) := by
  induction rest with
  | nil =>
    intro reg n i m k kept h
    by_cases hn : l.indent ≤ n.indent
    · rw [List.dropWhile_cons, if_pos (by simpa using hn)] at h
      simp at h
    · rw [List.dropWhile_cons, if_neg (by simpa using hn)] at h
      have hm : n = m := congrArg Prod.fst (List.head_eq_of_cons_eq h)
      have hk : i = k := congrArg Prod.snd (List.head_eq_of_cons_eq h)
      have hkept : [] = kept := List.tail_eq_of_cons_eq h
      subst hm; subst hk; subst hkept
      exact ⟨not_le.mp hn, n, rfl, rfl, insertAux_push l reg n i [] hn⟩
  | cons pj r ih =>
    obtain ⟨p, j⟩ := pj
    intro reg n i m k kept h
    by_cases hn : l.indent ≤ n.indent
    · rw [List.dropWhile_cons, if_pos (by simpa using hn)] at h
      rw [insertAux_pop_cons l reg n i p j r hn]
      by_cases hp : l.indent ≤ p.indent
      · refine ih reg ⟨p.text, p.indent, p.subs.set i n⟩ j m k kept ?_
        rw [List.dropWhile_cons, if_pos (by simpa using hp)]
        rw [List.dropWhile_cons, if_pos (by simpa using hp)] at h
        exact h
      · rw [List.dropWhile_cons, if_neg (by simpa using hp)] at h
        have hm : p = m := congrArg Prod.fst (List.head_eq_of_cons_eq h)
        have hk : j = k := congrArg Prod.snd (List.head_eq_of_cons_eq h)
        have hkept : r = kept := List.tail_eq_of_cons_eq h
        subst hm; subst hk; subst hkept
        refine ⟨not_le.mp hp, ⟨p.text, p.indent, p.subs.set i n⟩, rfl, rfl, ?_⟩
        exact insertAux_push l reg ⟨p.text, p.indent, p.subs.set i n⟩ j r hp
    · rw [List.dropWhile_cons, if_neg (by simpa using hn)] at h
      have hm : n = m := congrArg Prod.fst (List.head_eq_of_cons_eq h)
      have hk : i = k := congrArg Prod.snd (List.head_eq_of_cons_eq h)
      have hkept : (p, j) :: r = kept := List.tail_eq_of_cons_eq h
      subst hm; subst hk; subst hkept
      exact ⟨not_le.mp hn, n, rfl, rfl, insertAux_push l reg n i ((p, j) :: r) hn⟩

/-- C2: for a line with positive indentation, `insert_sub` pops from the
stack every entry whose indent is greater than or equal to the line's
indent (first conjunct: everything popped satisfies that bound, which in
particular closes a sibling at equal indent instead of nesting under it);
if the stack is exhausted nothing is attached, otherwise the line is
attached via `add_sub` as a child of the resulting top-of-stack entry
(whose indent is strictly smaller, i.e. the nearest still-open strictly
shallower line) and the returned node is pushed. -/
theorem insert_sub_spec (reg : List Lineobj) (stack : List (Lineobj × Nat)) (l : Lineobj)
    (hpos : 0 < l.indent) :
    (∀ f ∈ stack.takeWhile (fun f => decide (l.indent ≤ f.1.indent)), l.indent ≤ f.1.indent) ∧
    (match stack.dropWhile (fun f => decide (l.indent ≤ f.1.indent)) with
     | [] => insert_sub ⟨reg, stack⟩ l = ⟨flushStack reg stack, []⟩
     | (m, k) :: kept =>
         m.indent < l.indent ∧
         ∃ m' : Lineobj, m'.text = m.text ∧ m'.indent = m.indent ∧
           insert_sub ⟨reg, stack⟩ l =
             ⟨reg, ((m'.add_sub l).2.1, (m'.add_sub l).2.2) :: ((m'.add_sub l).1, k) :: kept⟩) := by
  constructor
  · intro f hf
    have h' := List.mem_takeWhile_imp hf
    simpa using h'
  · cases hD : stack.dropWhile (fun f => decide (l.indent ≤ f.1.indent)) with
    | nil =>
      cases stack with
      | nil => rfl
      | cons ni rest =>
        obtain ⟨n, i⟩ := ni
        have hall := List.dropWhile_eq_nil_iff.mp hD
        have h1 : l.indent ≤ n.indent :=
          of_decide_eq_true (hall (n, i) (List.mem_cons_self _ _))
        have h2 : ∀ f ∈ rest, l.indent ≤ f.1.indent := fun f hf =>
          of_decide_eq_true (hall f (List.mem_cons_of_mem _ hf))
        show (⟨(insertAux l reg n i rest).1, (insertAux l reg n i rest).2⟩ : BState) = _
        rw [insertAux_drop_all l rest reg n i h1 h2]
        rfl
    | cons mk kept =>
      obtain ⟨m, k⟩ := mk
      cases stack with
      | nil => simp at hD
      | cons ni rest =>
        obtain ⟨n, i⟩ := ni
        obtain ⟨hlt, m', hm1, hm2, hm3⟩ := insertAux_attach l rest reg n i m k kept hD
        refine ⟨hlt, m', hm1, hm2, ?_⟩
        show (⟨(insertAux l reg n i rest).1, (insertAux l reg n i rest).2⟩ : BState) = _
        rw [hm3]

/-- C2 witness: inserting a line of indent 1 onto a stack whose top entry
also has indent 1 pops that entry (the popped entry satisfies the
popped-entries indent bound). -/
theorem insert_sub_spec_witness :
    (Lineobj.mkLine " c").indent ≤ ((⟨" b", 1, []⟩ : Lineobj), 0).1.indent :=
  (insert_sub_spec [] [((⟨" b", 1, []⟩ : Lineobj), 0), ((⟨"a", 0, [⟨" b", 1, []⟩]⟩ : Lineobj), 0)]
    (Lineobj.mkLine " c") (by decide)).1 ((⟨" b", 1, []⟩ : Lineobj), 0) (by decide)

theorem step_blank (st : BState) (line : String) (h : isBlank line = true) :
    step st line = st := by
  simp [step, h]

theorem step_space (st : BState) (line : String) (h1 : isBlank line = false)
    (h2 : startsWithSpace line = true) :
    step st line = insert_sub st (Lineobj.mkLine line) := by
  simp [step, h1, h2]

theorem step_top (st : BState) (line : String) (h1 : isBlank line = false)
    (h2 : startsWithSpace line = false) :
    step st line = ⟨(registryLookupInsert (flushStack st.registry st.stack) line).1,
      [((registryLookupInsert (flushStack st.registry st.stack) line).2.1,
        (registryLookupInsert (flushStack st.registry st.stack) line).2.2)]⟩ := by
  simp [step, h1, h2]

theorem insert_sub_nil (reg : List Lineobj) (l : Lineobj) :
    insert_sub ⟨reg, []⟩ l = ⟨reg, []⟩ := rfl

theorem foldl_step_space_nil (P : List String) (h : ∀ l ∈ P, startsWithSpace l = true) :
    List.foldl step ⟨[], []⟩ P = ⟨[], []⟩ := by
  induction P with
  | nil => rfl
  | cons p ps ih =>
    have hp := h p (List.mem_cons_self p ps)
    have hstep : step ⟨[], []⟩ p = ⟨[], []⟩ := by
      by_cases hb : isBlank p = true
      · exact step_blank _ _ hb
      · rw [step_space _ _ (Bool.not_eq_true _ ▸ hb) hp]
        exact insert_sub_nil [] _
    rw [List.foldl_cons, hstep]
    exact ih (fun l hl => h l (List.mem_cons_of_mem p hl))

/-- C6: an indented line encountered while the ancestor stack is empty
(in particular, any run of indented lines before the first top-level
line) is silently dropped: `insert_sub` attaches nothing and the lines
never influence the output. -/
theorem orphan_lines_dropped (P L : List String)
    (h : ∀ l ∈ P, startsWithSpace l = true) :
    sort_config (P ++ L) = sort_config L ∧
    ∀ (reg : List Lineobj) (l : Lineobj), insert_sub ⟨reg, []⟩ l = ⟨reg, []⟩ := by
  constructor
  · show get_config (flushStack (runBuild (P ++ L)).registry (runBuild (P ++ L)).stack) = _
    have : runBuild (P ++ L) = runBuild L := by
      show List.foldl step ⟨[], []⟩ (P ++ L) = List.foldl step ⟨[], []⟩ L
      rw [List.foldl_append, foldl_step_space_nil P h]
    rw [this]
    rfl
  · exact insert_sub_nil

/-- C6 witness: an indented line before the first top-level line is
dropped from the output. -/
theorem orphan_lines_dropped_witness :
    sort_config ([" orphan"] ++ ["a", " b"]) = sort_config ["a", " b"] :=
  (orphan_lines_dropped [" orphan"] ["a", " b"] (by decide)).1

theorem pyIndent_eq_zero (l : String) (h : startsWithSpace l = false) : pyIndent l = 0 := by
  rw [pyIndent]
  rw [startsWithSpace] at h
  cases hc : l.toList with
  | nil => simp [hc]
  | cons c cs =>
    rw [hc] at h
    have h' : (c == ' ') = false := h
    simp only [hc, List.takeWhile_cons, h', Bool.false_eq_true, if_false, List.length_nil]

theorem startsWithSpace_iff_pos (l : String) : startsWithSpace l = true ↔ 0 < pyIndent l := by
  rw [startsWithSpace, pyIndent]
  cases hc : l.toList with
  | nil => simp
  | cons c cs =>
    by_cases h : (c == ' ') = true
    · simp [List.takeWhile_cons, h]
    · simp only [h, List.takeWhile_cons, Bool.false_eq_true, if_false, List.length_nil]
      simp only [Bool.false_eq_true, false_iff] at *
      omega

theorem rli_node_text (reg : List Lineobj) (t : String) :
    (registryLookupInsert reg t).2.1.text = t := by
  induction reg with
  | nil => rfl
  | cons m ms ih =>
    by_cases hm : (m.text == t) = true
    · simp [registryLookupInsert, hm]
      exact beq_iff_eq.mp hm
    · simp only [registryLookupInsert, hm, Bool.false_eq_true, if_false]
      exact ih

theorem rli_mem_text (reg : List Lineobj) (t : String) :
    t ∈ (registryLookupInsert reg t).1.map Lineobj.text := by
  induction reg with
  | nil => simp [registryLookupInsert, Lineobj.mkLine]
  | cons m ms ih =>
    by_cases hm : (m.text == t) = true
    · simp [registryLookupInsert, hm]
      exact Or.inl (beq_iff_eq.mp hm).symm
    · simp only [registryLookupInsert, hm, Bool.false_eq_true, if_false, List.map_cons,
        List.mem_cons]
      exact Or.inr ih

theorem rli_fresh (reg : List Lineobj) (t : String) (h : ∀ m ∈ reg, m.text ≠ t) :
    registryLookupInsert reg t = (reg ++ [Lineobj.mkLine t], Lineobj.mkLine t, reg.length) := by
  induction reg with
  | nil => rfl
  | cons m ms ih =>
    have hm : (m.text == t) = false :=
      beq_eq_false_iff_ne.mpr (h m (List.mem_cons_self m ms))
    simp only [registryLookupInsert, hm, Bool.false_eq_true, if_false]
    rw [ih (fun x hx => h x (List.mem_cons_of_mem m hx))]
    simp [List.length_cons]

/-- C9: a line whose first character is not a space (for example a
tab-indented line) has computed indent 0 and is treated as a new or
reopened top-level root: the stack is reset to exactly that line, the
line is registered as a top-level entry, and if no top-level entry with
that text exists yet a fresh root `⟨line, 0, []⟩` is appended. -/
theorem no_leading_space_top_level (st : BState) (line : String)
    (h : startsWithSpace line = false) :
    pyIndent line = 0 ∧
    (isBlank line = false → (step st line).stack.map (fun f => f.1.text) = [line]) ∧
    (isBlank line = false → line ∈ (step st line).registry.map Lineobj.text) ∧
    (isBlank line = false → (∀ m ∈ flushStack st.registry st.stack, m.text ≠ line) →
      (step st line).registry = flushStack st.registry st.stack ++ [⟨line, 0, []⟩]) := by
  refine ⟨pyIndent_eq_zero line h, ?_, ?_, ?_⟩
  · intro hb
    rw [step_top st line hb h]
    simp [rli_node_text]
  · intro hb
    rw [step_top st line hb h]
    exact rli_mem_text _ line
  · intro hb hfresh
    rw [step_top st line hb h]
    show (registryLookupInsert (flushStack st.registry st.stack) line).1 = _
    rw [rli_fresh _ line hfresh]
    rw [Lineobj.mkLine, pyIndent_eq_zero line h]

/-- C9 witness: a tab-indented line entering an empty builder state gets
indent 0 and becomes a fresh top-level root rather than nesting. -/
theorem no_leading_space_top_level_witness :
    pyIndent "\tx" = 0 ∧
    (step ⟨[], []⟩ "\tx").registry = flushStack [] [] ++ [⟨"\tx", 0, []⟩] := by
  have h := no_leading_space_top_level ⟨[], []⟩ "\tx" (by decide)
  exact ⟨h.1, h.2.2.2 (by decide) (by intro m hm; cases hm)⟩

/-- C8: `changed` is true exactly when the joined sorted source output
differs from the joined existing destination content (a missing
destination counting as empty); the destination is written exactly when
`changed` is true and check mode is off, so in check mode no write ever
occurs and on equal contents no write occurs either; the destination
content afterwards is the sorted output if written, else unchanged. -/
theorem module_main_spec (src : List String) (dest : Option (List String)) (check : Bool) :
    (module_main src dest check).changed =
      !(strJoin (sort_config src) == strJoin (dest.getD [])) ∧
    (module_main src dest check).wrote = ((module_main src dest check).changed && !check) ∧
    (module_main src dest check).diffShown = (module_main src dest check).changed ∧
    (module_main src none check).changed = !(strJoin (sort_config src) == strJoin []) ∧
    (module_main src dest check).destAfter =
      (if (module_main src dest check).wrote = true then sort_config src else dest.getD []) := by
  have hold : (match dest with | some ls => ls | none => []) = dest.getD [] := by
    cases dest <;> rfl
  rcases Bool.eq_false_or_eq_true (strJoin (sort_config src) == strJoin (dest.getD [])) with
    h1 | h1 <;>
  rcases Bool.eq_false_or_eq_true (strJoin (sort_config src) == strJoin ([] : List String)) with
    h2 | h2 <;>
  rcases Bool.eq_false_or_eq_true check with h3 | h3 <;>
    simp [module_main, hold, h1, h2, h3]

theorem foldl_step_filter_blank (L : List String) :
    ∀ st : BState, L.foldl step st = (L.filter (fun l => !isBlank l)).foldl step st := by
  induction L with
  | nil => intro st; rfl
  | cons l ls ih =>
    intro st
    by_cases hb : isBlank l = true
    · rw [List.foldl_cons, step_blank st l hb]
      rw [List.filter_cons]
      simp only [hb, Bool.not_true, Bool.false_eq_true, if_false]
      exact ih st
    · have hb' : isBlank l = false := Bool.not_eq_true _ ▸ hb
      rw [List.foldl_cons]
      rw [List.filter_cons]
      simp only [hb', Bool.not_false, if_true, List.foldl_cons]
      exact ih (step st l)

theorem good_indent {n : Lineobj} (h : Good n) : n.indent = pyIndent n.text := by
  cases h with
  | node t i subs h1 h2 h3 h4 h5 => exact h1

theorem good_nonblank {n : Lineobj} (h : Good n) : isBlank n.text = false := by
  cases h with
  | node t i subs h1 h2 h3 h4 h5 => exact h2

theorem good_subs_nodup {n : Lineobj} (h : Good n) : (n.subs.map Lineobj.text).Nodup := by
  cases h with
  | node t i subs h1 h2 h3 h4 h5 => exact h3

theorem good_subs_indent {n : Lineobj} (h : Good n) : ∀ s ∈ n.subs, n.indent < s.indent := by
  cases h with
  | node t i subs h1 h2 h3 h4 h5 => exact h4

theorem good_subs_good {n : Lineobj} (h : Good n) : ∀ s ∈ n.subs, Good s := by
  cases h with
  | node t i subs h1 h2 h3 h4 h5 => exact h5

theorem good_mk {n : Lineobj} (h1 : n.indent = pyIndent n.text) (h2 : isBlank n.text = false)
    (h3 : (n.subs.map Lineobj.text).Nodup) (h4 : ∀ s ∈ n.subs, n.indent < s.indent)
    (h5 : ∀ s ∈ n.subs, Good s) : Good n := by
  obtain ⟨t, i, subs⟩ := n
  exact Good.node t i subs h1 h2 h3 h4 h5

theorem mkLine_good (line : String) (h : isBlank line = false) : Good (Lineobj.mkLine line) :=
  Good.node line (pyIndent line) [] rfl h List.nodup_nil
    (by intro s hs; cases hs) (by intro s hs; cases hs)

theorem list_set_self {α : Type} (l : List α) (i : Nat) (a : α) (h : l[i]? = some a) :
    l.set i a = l := by
  induction l generalizing i with
  | nil => rfl
  | cons x xs ih =>
    cases i with
    | zero =>
      simp only [List.getElem?_cons_zero, Option.some_inj] at h
      rw [List.set_cons_zero, h]
    | succ j =>
      simp only [List.getElem?_cons_succ] at h
      rw [List.set_cons_succ, ih j h]

theorem list_mem_of_getElem {α : Type} {l : List α} {i : Nat} {a : α} (h : l[i]? = some a) :
    a ∈ l := by
  obtain ⟨hlt, hv⟩ := List.getElem?_eq_some_iff.mp h
  exact hv ▸ List.getElem_mem hlt

theorem good_set {t : String} {ind i : Nat} {subs : List Lineobj} {c x : Lineobj}
    (hg : Good ⟨t, ind, subs⟩) (hc : subs[i]? = some c)
    (ht : x.text = c.text) (hi : x.indent = c.indent) (hx : Good x) :
    Good ⟨t, ind, subs.set i x⟩ := by
  have hcmem : c ∈ subs := list_mem_of_getElem hc
  refine good_mk ?_ ?_ ?_ ?_ ?_
  · show ind = pyIndent t
    exact good_indent hg
  · show isBlank t = false
    exact good_nonblank hg
  · show ((subs.set i x).map Lineobj.text).Nodup
    rw [List.map_set]
    have hmc : (subs.map Lineobj.text)[i]? = some c.text := by
      rw [List.getElem?_map, hc]
      rfl
    rw [ht, list_set_self _ i _ hmc]
    exact good_subs_nodup hg
  · intro s hs
    rcases List.mem_or_eq_of_mem_set hs with hs | hs
    · exact good_subs_indent hg s hs
    · subst hs
      show ind < s.indent
      rw [hi]
      exact good_subs_indent hg c hcmem
  · intro s hs
    rcases List.mem_or_eq_of_mem_set hs with hs | hs
    · exact good_subs_good hg s hs
    · subst hs; exact hx

theorem addSubList_getElem (subs : List Lineobj) (l : Lineobj) :
    (addSubList subs l).1[(addSubList subs l).2.2]? = some (addSubList subs l).2.1 := by
  have h := (addSubList_get subs l).1
  rwa [List.get?_eq_getElem?] at h

theorem good_add_sub {n l : Lineobj} (hn : Good n) (hl : Good l) (hlt : n.indent < l.indent) :
    Good (n.add_sub l).1 ∧ Good (n.add_sub l).2.1 ∧
    (n.add_sub l).2.1.text = l.text ∧ (n.add_sub l).2.1.indent = l.indent ∧
    (n.add_sub l).1.text = n.text ∧ (n.add_sub l).1.indent = n.indent ∧
    ((n.add_sub l).1.subs)[(n.add_sub l).2.2]? = some (n.add_sub l).2.1 := by
  obtain ⟨t, ind, subs⟩ := n
  have hproj1 : ((⟨t, ind, subs⟩ : Lineobj).add_sub l).1 =
      ⟨t, ind, (addSubList subs l).1⟩ := rfl
  have hproj2 : ((⟨t, ind, subs⟩ : Lineobj).add_sub l).2.1 = (addSubList subs l).2.1 := rfl
  have hproj3 : ((⟨t, ind, subs⟩ : Lineobj).add_sub l).2.2 = (addSubList subs l).2.2 := rfl
  rw [hproj1, hproj2, hproj3]
  have hget := addSubList_getElem subs l
  rcases addSubList_cases subs l with ⟨h1, h2, h3⟩ | ⟨h1, h2, h3⟩
  · refine ⟨?_, ?_, ?_, ?_, rfl, rfl, hget⟩
    · rw [h1]
      refine good_mk ?_ ?_ ?_ ?_ ?_
      · show ind = pyIndent t
        exact good_indent hn
      · show isBlank t = false
        exact good_nonblank hn
      · show ((subs ++ [l]).map Lineobj.text).Nodup
        have hnd := addSubList_nodup subs l (good_subs_nodup hn)
        rw [h1] at hnd
        exact hnd
      · intro s hs
        show ind < s.indent
        rcases List.mem_append.mp hs with hs | hs
        · exact good_subs_indent hn s hs
        · rw [List.mem_singleton.mp hs]
          exact hlt
      · intro s hs
        rcases List.mem_append.mp hs with hs | hs
        · exact good_subs_good hn s hs
        · rw [List.mem_singleton.mp hs]
          exact hl
    · rw [h2]; exact hl
    · rw [h2]
    · rw [h2]
  · have hgs : Good (addSubList subs l).2.1 := good_subs_good hn _ h2
    refine ⟨?_, hgs, h3, ?_, rfl, rfl, hget⟩
    · rw [h1]
      exact hn
    · rw [good_indent hgs, h3, ← good_indent hl]

theorem stackInvAux_nil_def (reg : List Lineobj) (n : Lineobj) (i : Nat) :
    StackInvAux reg n i [] =
      (Good n ∧ i < reg.length ∧
       (reg.getD i ⟨"", 0, []⟩).text = n.text ∧
       (reg.getD i ⟨"", 0, []⟩).indent = n.indent ∧
       BaseInv (reg.set i n)) := rfl

theorem stackInvAux_cons_def (reg : List Lineobj) (n : Lineobj) (i : Nat)
    (p : Lineobj) (j : Nat) (r : List (Lineobj × Nat)) :
    StackInvAux reg n i ((p, j) :: r) =
      (Good n ∧ p.indent < n.indent ∧ i < p.subs.length ∧
       (p.subs.getD i ⟨"", 0, []⟩).text = n.text ∧
       (p.subs.getD i ⟨"", 0, []⟩).indent = n.indent ∧
       StackInvAux reg ⟨p.text, p.indent, p.subs.set i n⟩ j r) := rfl

theorem stackInvAux_good {reg : List Lineobj} {n : Lineobj} {i : Nat}
    {rest : List (Lineobj × Nat)} (h : StackInvAux reg n i rest) : Good n := by
  cases rest with
  | nil =>
    rw [stackInvAux_nil_def] at h
    exact h.1
  | cons pj r =>
    obtain ⟨p, j⟩ := pj
    rw [stackInvAux_cons_def] at h
    exact h.1

theorem list_getD_of_getElem {α : Type} {l : List α} {i : Nat} {a : α} (d : α)
    (h : l[i]? = some a) : l.getD i d = a := by
  rw [List.getD_eq_getElem?_getD, h]
  rfl

theorem stInv_nil_def (reg : List Lineobj) : StInv ⟨reg, []⟩ = BaseInv reg := rfl

theorem stInv_cons_def (reg : List Lineobj) (n : Lineobj) (i : Nat)
    (rest : List (Lineobj × Nat)) :
    StInv ⟨reg, (n, i) :: rest⟩ = StackInvAux reg n i rest := rfl

theorem stackInvAux_update :
    ∀ (rest : List (Lineobj × Nat)) (reg : List Lineobj) (n : Lineobj) (i : Nat),
      StackInvAux reg n i rest → ∀ n' : Lineobj, n'.text = n.text → n'.indent = n.indent →
      Good n' → StackInvAux reg n' i rest := by
  intro rest
  induction rest with
  | nil =>
    intro reg n i h n' ht hi hg
    rw [stackInvAux_nil_def] at h ⊢
    obtain ⟨h1, h2, h3, h4, h5⟩ := h
    refine ⟨hg, h2, by rw [h3, ht], by rw [h4, hi], ?_⟩
    have hss : (reg.set i n).set i n' = reg.set i n' := List.set_set ..
    rw [← hss]
    obtain ⟨hnd, hmem⟩ := h5
    constructor
    · rw [List.map_set]
      have hmc : ((reg.set i n).map Lineobj.text)[i]? = some n.text := by
        rw [List.getElem?_map, List.getElem?_set_eq_of_lt n h2]
        rfl
      rw [ht, list_set_self _ i _ hmc]
      exact hnd
    · intro x hx
      rcases List.mem_or_eq_of_mem_set hx with hx | hx
      · exact hmem x hx
      · subst hx
        have hnmem : n ∈ reg.set i n := list_mem_of_getElem (List.getElem?_set_eq_of_lt n h2)
        exact ⟨hg, by rw [hi, (hmem n hnmem).2]⟩
  | cons pj r ih =>
    obtain ⟨p, j⟩ := pj
    intro reg n i h n' ht hi hg
    rw [stackInvAux_cons_def] at h ⊢
    obtain ⟨h1, h2, h3, h4, h5, h6⟩ := h
    refine ⟨hg, by rw [hi]; exact h2, h3, by rw [h4, ht], by rw [h5, hi], ?_⟩
    have hgf : Good ⟨p.text, p.indent, p.subs.set i n⟩ := stackInvAux_good h6
    have hsget : (p.subs.set i n)[i]? = some n := List.getElem?_set_eq_of_lt n h3
    have hgf' : Good ⟨p.text, p.indent, (p.subs.set i n).set i n'⟩ :=
      good_set hgf hsget ht hi hg
    have hss : (p.subs.set i n).set i n' = p.subs.set i n' := List.set_set ..
    rw [hss] at hgf'
    exact ih reg ⟨p.text, p.indent, p.subs.set i n⟩ j h6
      ⟨p.text, p.indent, p.subs.set i n'⟩ rfl rfl hgf'

theorem stackInvAux_flush :
    ∀ (rest : List (Lineobj × Nat)) (reg : List Lineobj) (n : Lineobj) (i : Nat),
      StackInvAux reg n i rest → BaseInv (flushAux reg n i rest) := by
  intro rest
  induction rest with
  | nil =>
    intro reg n i h
    rw [stackInvAux_nil_def] at h
    rw [flushAux]
    exact h.2.2.2.2
  | cons pj r ih =>
    obtain ⟨p, j⟩ := pj
    intro reg n i h
    rw [stackInvAux_cons_def] at h
    rw [flushAux]
    exact ih reg _ j h.2.2.2.2.2

theorem stInv_flush (st : BState) (h : StInv st) :
    BaseInv (flushStack st.registry st.stack) := by
  obtain ⟨reg, stack⟩ := st
  cases stack with
  | nil => exact h
  | cons ni rest =>
    obtain ⟨n, i⟩ := ni
    rw [stInv_cons_def] at h
    exact stackInvAux_flush rest reg n i h

theorem insertAux_attach_inv (l : Lineobj) (rest : List (Lineobj × Nat)) (reg : List Lineobj)
    (n : Lineobj) (i : Nat) (hl : Good l) (hn : ¬ l.indent ≤ n.indent)
    (hinv : StackInvAux reg n i rest) :
    StackInvAux reg (n.add_sub l).2.1 (n.add_sub l).2.2 (((n.add_sub l).1, i) :: rest) := by
  have hgn : Good n := stackInvAux_good hinv
  obtain ⟨hg1, hg2, hg3, hg4, hg5, hg6, hg7⟩ := good_add_sub hgn hl (not_le.mp hn)
  rw [stackInvAux_cons_def]
  refine ⟨hg2, ?_, (List.getElem?_eq_some_iff.mp hg7).1, ?_, ?_, ?_⟩
  · rw [hg6, hg4]
    exact not_le.mp hn
  · rw [list_getD_of_getElem _ hg7]
  · rw [list_getD_of_getElem _ hg7]
  · have hset : (n.add_sub l).1.subs.set (n.add_sub l).2.2 (n.add_sub l).2.1 =
        (n.add_sub l).1.subs := list_set_self _ _ _ hg7
    rw [hset]
    have heta : (⟨(n.add_sub l).1.text, (n.add_sub l).1.indent, (n.add_sub l).1.subs⟩ :
        Lineobj) = (n.add_sub l).1 := rfl
    rw [heta]
    exact stackInvAux_update rest reg n i hinv (n.add_sub l).1 hg5 hg6 hg1

theorem insertAux_inv (l : Lineobj) (hl : Good l) :
    ∀ (rest : List (Lineobj × Nat)) (reg : List Lineobj) (n : Lineobj) (i : Nat),
      StackInvAux reg n i rest →
      StInv ⟨(insertAux l reg n i rest).1, (insertAux l reg n i rest).2⟩ := by
  intro rest
  induction rest with
  | nil =>
    intro reg n i hinv
    by_cases hn : l.indent ≤ n.indent
    · rw [insertAux_pop_nil l reg n i hn]
      show StInv ⟨reg.set i n, []⟩
      rw [stInv_nil_def]
      rw [stackInvAux_nil_def] at hinv
      exact hinv.2.2.2.2
    · rw [insertAux_push l reg n i [] hn]
      show StInv ⟨reg, ((n.add_sub l).2.1, (n.add_sub l).2.2) :: ((n.add_sub l).1, i) :: []⟩
      rw [stInv_cons_def]
      exact insertAux_attach_inv l [] reg n i hl hn hinv
  | cons pj r ih =>
    obtain ⟨p, j⟩ := pj
    intro reg n i hinv
    by_cases hn : l.indent ≤ n.indent
    · rw [insertAux_pop_cons l reg n i p j r hn]
      rw [stackInvAux_cons_def] at hinv
      exact ih reg _ j hinv.2.2.2.2.2
    · rw [insertAux_push l reg n i ((p, j) :: r) hn]
      show StInv ⟨reg,
        ((n.add_sub l).2.1, (n.add_sub l).2.2) :: ((n.add_sub l).1, i) :: (p, j) :: r⟩
      rw [stInv_cons_def]
      exact insertAux_attach_inv l ((p, j) :: r) reg n i hl hn hinv

theorem rli_getElem (reg : List Lineobj) (t : String) :
    (registryLookupInsert reg t).1[(registryLookupInsert reg t).2.2]? =
      some (registryLookupInsert reg t).2.1 := by
  induction reg with
  | nil => rfl
  | cons m ms ih =>
    by_cases hm : (m.text == t) = true
    · simp [registryLookupInsert, hm]
    · simp only [registryLookupInsert, hm, Bool.false_eq_true, if_false]
      simpa using ih

theorem rli_cases (reg : List Lineobj) (t : String) :
    (registryLookupInsert reg t = (reg ++ [Lineobj.mkLine t], Lineobj.mkLine t, reg.length) ∧
      ∀ m ∈ reg, m.text ≠ t) ∨
    ((registryLookupInsert reg t).1 = reg ∧ (registryLookupInsert reg t).2.1 ∈ reg ∧
      (registryLookupInsert reg t).2.1.text = t) := by
  induction reg with
  | nil =>
    left
    refine ⟨rfl, ?_⟩
    intro m hm
    cases hm
  | cons m ms ih =>
    by_cases hm : (m.text == t) = true
    · right
      have hmt : m.text = t := beq_iff_eq.mp hm
      refine ⟨?_, ?_, ?_⟩ <;> simp [registryLookupInsert, hm, hmt]
    · rcases ih with ⟨h1, h2⟩ | ⟨h1, h2, h3⟩
      · left
        simp only [registryLookupInsert, hm, Bool.false_eq_true, if_false]
        refine ⟨by rw [h1]; rfl, ?_⟩
        intro x hx
        rcases List.mem_cons.mp hx with hx | hx
        · subst hx
          exact beq_eq_false_iff_ne.mp (Bool.not_eq_true _ ▸ hm)
        · exact h2 x hx
      · right
        simp only [registryLookupInsert, hm, Bool.false_eq_true, if_false]
        exact ⟨by rw [h1], List.mem_cons_of_mem m h2, h3⟩

theorem rli_inv (reg : List Lineobj) (t : String) (hB : BaseInv reg)
    (hb : isBlank t = false) (hs : startsWithSpace t = false) :
    StackInvAux (registryLookupInsert reg t).1 (registryLookupInsert reg t).2.1
      (registryLookupInsert reg t).2.2 [] := by
  obtain ⟨hnd, hmem⟩ := hB
  have hget := rli_getElem reg t
  have hB' : BaseInv (registryLookupInsert reg t).1 := by
    rcases rli_cases reg t with ⟨h1, h2⟩ | ⟨h1, h2, h3⟩
    · rw [show (registryLookupInsert reg t).1 = reg ++ [Lineobj.mkLine t] from by rw [h1]]
      constructor
      · rw [List.map_append, List.map_singleton, List.nodup_append]
        refine ⟨hnd, List.nodup_singleton _, ?_⟩
        intro x hx
        simp only [List.mem_singleton]
        obtain ⟨m, hm, hmx⟩ := List.mem_map.mp hx
        intro hxeq
        exact h2 m hm (by rw [hmx, hxeq]; rfl)
      · intro x hx
        rcases List.mem_append.mp hx with hx | hx
        · exact hmem x hx
        · rw [List.mem_singleton.mp hx]
          exact ⟨mkLine_good t hb, pyIndent_eq_zero t hs⟩
    · rw [h1]
      exact ⟨hnd, hmem⟩
  have hgood : Good (registryLookupInsert reg t).2.1 := by
    rcases rli_cases reg t with ⟨h1, h2⟩ | ⟨h1, h2, h3⟩
    · rw [show (registryLookupInsert reg t).2.1 = Lineobj.mkLine t from by rw [h1]]
      exact mkLine_good t hb
    · exact (hmem _ h2).1
  rw [stackInvAux_nil_def]
  refine ⟨hgood, (List.getElem?_eq_some_iff.mp hget).1, ?_, ?_, ?_⟩
  · rw [list_getD_of_getElem _ hget]
  · rw [list_getD_of_getElem _ hget]
  · rw [list_set_self _ _ _ hget]
    exact hB'

theorem step_inv (st : BState) (line : String) (h : StInv st) : StInv (step st line) := by
  by_cases hb : isBlank line = true
  · rw [step_blank st line hb]
    exact h
  · have hb' : isBlank line = false := Bool.not_eq_true _ ▸ hb
    by_cases hs : startsWithSpace line = true
    · rw [step_space st line hb' hs]
      obtain ⟨reg, stack⟩ := st
      cases stack with
      | nil => exact h
      | cons ni rest =>
        obtain ⟨n, i⟩ := ni
        show StInv ⟨(insertAux (Lineobj.mkLine line) reg n i rest).1,
          (insertAux (Lineobj.mkLine line) reg n i rest).2⟩
        rw [stInv_cons_def] at h
        exact insertAux_inv (Lineobj.mkLine line) (mkLine_good line hb') rest reg n i h
    · have hs' : startsWithSpace line = false := Bool.not_eq_true _ ▸ hs
      rw [step_top st line hb' hs']
      rw [stInv_cons_def]
      exact rli_inv _ line (stInv_flush st h) hb' hs'

theorem foldl_step_inv (L : List String) :
    ∀ st : BState, StInv st → StInv (L.foldl step st) := by
  induction L with
  | nil => intro st h; exact h
  | cons l ls ih =>
    intro st h
    rw [List.foldl_cons]
    exact ih (step st l) (step_inv st l h)

theorem runBuild_inv (L : List String) : StInv (runBuild L) := by
  refine foldl_step_inv L ⟨[], []⟩ ?_
  rw [stInv_nil_def]
  refine ⟨by simp, ?_⟩
  intro n hn
  cases hn

theorem buildForest_good (L : List String) : ∀ n ∈ buildForest L, Good n := by
  have hB := stInv_flush (runBuild L) (runBuild_inv L)
  obtain ⟨-, hmem⟩ := hB
  exact fun n hn => (hmem n hn).1

/-- C10: `sort_config` is a total function: it flattens the forest the
builder produces, and every node of that forest is well formed (`Good`):
in particular every parent/child link created by `insert_sub` satisfies
child indent strictly greater than parent indent, so the built structure
is acyclic and the recursive flattening is well founded. -/
theorem sort_config_wf (L : List String) :
    sort_config L = get_config (buildForest L) ∧ ∀ n ∈ buildForest L, Good n :=
  ⟨rfl, buildForest_good L⟩

/-- C10 witness: the forest built from a two-line config is well formed. -/
theorem sort_config_wf_witness : Good ⟨"a", 0, [⟨" b", 1, []⟩]⟩ :=
  (sort_config_wf ["a", " b"]).2 ⟨"a", 0, [⟨" b", 1, []⟩]⟩ (by decide)

theorem mem_getConfigFuel :
    ∀ (fuel : Nat) (lines : List Lineobj) (x : String),
      x ∈ getConfigFuel fuel lines → ∃ n ∈ lines, MemText x n := by
  intro fuel
  induction fuel with
  | zero => intro lines x hx; cases hx
  | succ fuel ih =>
    intro lines x hx
    rw [getConfigFuel] at hx
    obtain ⟨l, hl, hxl⟩ := List.mem_flatMap.mp hx
    have hlmem : l ∈ lines := mem_sortNodes.mp hl
    rcases List.mem_cons.mp hxl with hxl | hxl
    · subst hxl
      exact ⟨l, hlmem, MemText.here l⟩
    · obtain ⟨s, hs, hmt⟩ := ih l.subs x hxl
      exact ⟨l, hlmem, MemText.there x l s hs hmt⟩

theorem good_memText {x : String} {n : Lineobj} (hm : MemText x n) :
    Good n → isBlank x = false := by
  induction hm with
  | here n => intro hg; exact good_nonblank hg
  | there x n s hs hmem ih => intro hg; exact ih (good_subs_good hg s hs)

/-- C7: blank lines (empty after stripping whitespace) are skipped by
`sort_config`: the output equals the output on the input with all blank
lines removed (so they affect neither the output nor the parent/child
structure of surrounding lines), and no blank line ever appears in the
output. -/
theorem blank_line_elision (L : List String) :
    sort_config L = sort_config (L.filter (fun l => !(isBlank l))) ∧
    ∀ x ∈ sort_config L, isBlank x = false := by
  constructor
  · show get_config (flushStack (runBuild L).registry (runBuild L).stack) = _
    have hrb : runBuild L = runBuild (L.filter (fun l => !(isBlank l))) :=
      foldl_step_filter_blank L ⟨[], []⟩
    rw [hrb]
    rfl
  · intro x hx
    obtain ⟨n, hn, hmt⟩ := mem_getConfigFuel _ _ x hx
    exact good_memText hmt (buildForest_good L n hn)

/-- C7 witness: a run with an interleaved blank line gives the same
output as without it, and a concrete output line is non-blank. -/
theorem blank_line_elision_witness : isBlank "a" = false :=
  (blank_line_elision ["a", "  ", " b"]).2 "a" (by decide)

/-- C4: evaluation of the code at a concrete failing input.  The claim
states `sort_config (sort_config L) = sort_config L` for every `L`; the
input `["a", "  p", " \tq", "  r"]` violates it.  In the first pass `"  p"`
and `" \tq"` are siblings under `"a"` (with `"  r"` below `" \tq"`), and
the sibling sort puts `" \tq"` before `"  p"` because the tab (codepoint
9) sorts below the space (codepoint 32); rebuilding from that output then
nests `"  p"` (indent 2) under `" \tq"` (indent 1), so the second pass
emits `"  p"` before `"  r"` while the first pass emitted them in the
opposite order. -/
theorem sort_config_not_idempotent :
    sort_config ["a", "  p", " \tq", "  r"] = ["a", " \tq", "  r", "  p"] ∧
    sort_config (sort_config ["a", "  p", " \tq", "  r"]) = ["a", " \tq", "  p", "  r"] ∧
    sort_config (sort_config ["a", "  p", " \tq", "  r"]) ≠
      sort_config ["a", "  p", " \tq", "  r"] :=
  ⟨by decide, by decide, by decide⟩

theorem addSubList_indent_inv (σ : List Lineobj) (c : String)
    (hσ : ∀ n ∈ σ, n.indent = pyIndent n.text) :
    ∀ n ∈ (addSubList σ (Lineobj.mkLine c)).1, n.indent = pyIndent n.text := by
  rcases addSubList_cases σ (Lineobj.mkLine c) with ⟨h1, h2, h3⟩ | ⟨h1, h2, h3⟩
  · rw [h1]
    intro n hn
    rcases List.mem_append.mp hn with hn | hn
    · exact hσ n hn
    · rw [List.mem_singleton.mp hn]
      rfl
  · rw [h1]
    exact hσ

theorem addSubList_child_indent (σ : List Lineobj) (c : String) (d : Nat)
    (hσ : ∀ n ∈ σ, n.indent = pyIndent n.text) (hc : pyIndent c = d) :
    (addSubList σ (Lineobj.mkLine c)).2.1.indent = d := by
  rcases addSubList_cases σ (Lineobj.mkLine c) with ⟨h1, h2, h3⟩ | ⟨h1, h2, h3⟩
  · rw [h2]
    exact hc
  · rw [hσ _ h2, h3]
    exact hc

theorem childStep (t : String) (d : Nat) (hd : 0 < d) (reg0 : List Lineobj)
    (σ : List Lineobj) (hσ : ∀ n ∈ σ, n.indent = pyIndent n.text)
    (c : String) (hc : pyIndent c = d) (hcb : isBlank c = false)
    (s0 : List (Lineobj × Nat)) (hs0 : MidStack t d σ s0) :
    ∃ s1, step ⟨reg0, s0⟩ c = ⟨reg0, s1⟩ ∧
      MidStack t d ((addSubList σ (Lineobj.mkLine c)).1) s1 := by
  have hcs : startsWithSpace c = true := (startsWithSpace_iff_pos c).mpr (by omega)
  have hind : (Lineobj.mkLine c).indent = d := hc
  have hnle : ¬ (Lineobj.mkLine c).indent ≤ (⟨t, 0, σ⟩ : Lineobj).indent := by
    show ¬ (Lineobj.mkLine c).indent ≤ 0
    rw [hind]
    omega
  have hpush := insertAux_push (Lineobj.mkLine c) reg0 ⟨t, 0, σ⟩ 0 [] hnle
  have hmid : MidStack t d ((addSubList σ (Lineobj.mkLine c)).1)
      [((addSubList σ (Lineobj.mkLine c)).2.1, (addSubList σ (Lineobj.mkLine c)).2.2),
       (⟨t, 0, (addSubList σ (Lineobj.mkLine c)).1⟩, 0)] := by
    right
    exact ⟨(addSubList σ (Lineobj.mkLine c)).2.1, (addSubList σ (Lineobj.mkLine c)).2.2,
      addSubList_getElem σ (Lineobj.mkLine c),
      addSubList_child_indent σ c d hσ hc, rfl⟩
  rw [step_space ⟨reg0, s0⟩ c hcb hcs]
  rcases hs0 with hs0 | ⟨x, jdx, hget, hxind, hs0⟩
  · subst hs0
    refine ⟨_, ?_, hmid⟩
    show (⟨(insertAux (Lineobj.mkLine c) reg0 ⟨t, 0, σ⟩ 0 []).1,
      (insertAux (Lineobj.mkLine c) reg0 ⟨t, 0, σ⟩ 0 []).2⟩ : BState) = _
    rw [hpush]
    rfl
  · subst hs0
    refine ⟨_, ?_, hmid⟩
    show (⟨(insertAux (Lineobj.mkLine c) reg0 x jdx [(⟨t, 0, σ⟩, 0)]).1,
      (insertAux (Lineobj.mkLine c) reg0 x jdx [(⟨t, 0, σ⟩, 0)]).2⟩ : BState) = _
    have hle : (Lineobj.mkLine c).indent ≤ x.indent := by
      rw [hind, hxind]
    rw [insertAux_pop_cons (Lineobj.mkLine c) reg0 x jdx ⟨t, 0, σ⟩ 0 [] hle]
    have hsetσ : ((⟨t, 0, σ⟩ : Lineobj).subs.set jdx x) = σ := list_set_self σ jdx x hget
    rw [show ((⟨(⟨t, 0, σ⟩ : Lineobj).text, (⟨t, 0, σ⟩ : Lineobj).indent,
        (⟨t, 0, σ⟩ : Lineobj).subs.set jdx x⟩ : Lineobj)) = ⟨t, 0, σ⟩ from by rw [hsetσ]]
    rw [hpush]
    rfl

theorem addLeaves_cons (σ : List Lineobj) (c : String) (cs : List String) :
    addLeaves σ (c :: cs) = addLeaves ((addSubList σ (Lineobj.mkLine c)).1) cs := rfl

theorem addLeaves_append (σ : List Lineobj) (cs1 cs2 : List String) :
    addLeaves σ (cs1 ++ cs2) = addLeaves (addLeaves σ cs1) cs2 :=
  List.foldl_append ..

theorem addLeaves_indent_inv (cs : List String) :
    ∀ σ : List Lineobj, (∀ n ∈ σ, n.indent = pyIndent n.text) →
      ∀ n ∈ addLeaves σ cs, n.indent = pyIndent n.text := by
  induction cs with
  | nil => intro σ hσ; exact hσ
  | cons c cs ih =>
    intro σ hσ
    rw [addLeaves_cons]
    exact ih _ (addSubList_indent_inv σ c hσ)

theorem foldChildren (t : String) (d : Nat) (hd : 0 < d) (reg0 : List Lineobj)
    (cs : List String) :
    (∀ c ∈ cs, pyIndent c = d ∧ isBlank c = false) →
    ∀ (σ : List Lineobj), (∀ n ∈ σ, n.indent = pyIndent n.text) →
    ∀ s0, MidStack t d σ s0 →
      ∃ s1, List.foldl step ⟨reg0, s0⟩ cs = ⟨reg0, s1⟩ ∧ MidStack t d (addLeaves σ cs) s1 := by
  induction cs with
  | nil =>
    intro _ σ hσ s0 hs0
    exact ⟨s0, rfl, hs0⟩
  | cons c cs ih =>
    intro hcs σ hσ s0 hs0
    obtain ⟨hc, hcb⟩ := hcs c (List.mem_cons_self c cs)
    obtain ⟨s1, hstep, hmid⟩ := childStep t d hd reg0 σ hσ c hc hcb s0 hs0
    rw [List.foldl_cons, hstep]
    rw [addLeaves_cons]
    exact ih (fun x hx => hcs x (List.mem_cons_of_mem c hx)) _
      (addSubList_indent_inv σ c hσ) s1 hmid

theorem flush_midStack (t : String) (d : Nat) (σ : List Lineobj)
    (s : List (Lineobj × Nat)) (hs : MidStack t d σ s) (r0 : Lineobj) :
    flushStack [r0] s = [⟨t, 0, σ⟩] := by
  rcases hs with hs | ⟨x, jdx, hget, hxind, hs⟩
  · subst hs
    rfl
  · subst hs
    show flushAux [r0] x jdx [(⟨t, 0, σ⟩, 0)] = _
    rw [flushAux]
    have hsetσ : ((⟨t, 0, σ⟩ : Lineobj).subs.set jdx x) = σ := list_set_self σ jdx x hget
    rw [show ((⟨(⟨t, 0, σ⟩ : Lineobj).text, (⟨t, 0, σ⟩ : Lineobj).indent,
        (⟨t, 0, σ⟩ : Lineobj).subs.set jdx x⟩ : Lineobj)) = ⟨t, 0, σ⟩ from by rw [hsetσ]]
    rfl

theorem addSubList_mk_mem (ds : List String) (c : String) (h : c ∈ ds) :
    (addSubList (ds.map Lineobj.mkLine) (Lineobj.mkLine c)).1 = ds.map Lineobj.mkLine := by
  rcases addSubList_cases (ds.map Lineobj.mkLine) (Lineobj.mkLine c) with
    ⟨h1, h2, h3⟩ | ⟨h1, _, _⟩
  · exact absurd rfl (h3 (Lineobj.mkLine c) (List.mem_map_of_mem _ h))
  · exact h1

theorem addSubList_mk_not_mem (ds : List String) (c : String) (h : c ∉ ds) :
    (addSubList (ds.map Lineobj.mkLine) (Lineobj.mkLine c)).1 =
      (ds ++ [c]).map Lineobj.mkLine := by
  have hne : ∀ s ∈ ds.map Lineobj.mkLine, s.text ≠ (Lineobj.mkLine c).text := by
    intro s hs hc
    obtain ⟨x, hx, hxs⟩ := List.mem_map.mp hs
    rw [← hxs] at hc
    exact h ((show x = c from hc) ▸ hx)
  rw [addSubList_of_not_found _ _ hne]
  simp

theorem addLeaves_eq_dedup (cs : List String) :
    ∀ ds : List String,
      addLeaves (ds.map Lineobj.mkLine) cs = (ds ++ dedupSeen ds cs).map Lineobj.mkLine := by
  induction cs with
  | nil => intro ds; simp [addLeaves, dedupSeen]
  | cons c cs ih =>
    intro ds
    rw [addLeaves_cons]
    by_cases hin : c ∈ ds
    · have hin' : ds.contains c = true := by simpa using hin
      rw [addSubList_mk_mem ds c hin, ih ds]
      rw [show dedupSeen ds (c :: cs) = dedupSeen ds cs from by
        simp only [dedupSeen, hin', if_true]]
    · have hin' : ds.contains c = false := by simpa using hin
      rw [addSubList_mk_not_mem ds c hin, ih (ds ++ [c])]
      rw [show dedupSeen ds (c :: cs) = c :: dedupSeen (ds ++ [c]) cs from by
        simp only [dedupSeen, hin', Bool.false_eq_true, if_false]]
      simp

theorem dedupSeen_sub (cs : List String) : ∀ (ds : List String) (x : String),
    x ∈ dedupSeen ds cs → x ∈ cs := by
  induction cs with
  | nil => intro ds x hx; cases hx
  | cons c cs ih =>
    intro ds x hx
    by_cases hin : ds.contains c = true
    · simp only [dedupSeen, hin, if_true] at hx
      exact List.mem_cons_of_mem c (ih ds x hx)
    · have hin' : ds.contains c = false := Bool.not_eq_true _ ▸ hin
      simp only [dedupSeen, hin', Bool.false_eq_true, if_false] at hx
      rcases List.mem_cons.mp hx with hx | hx
      · exact hx ▸ List.mem_cons_self c cs
      · exact List.mem_cons_of_mem c (ih (ds ++ [c]) x hx)

theorem flatMap_mkLine (xs : List String) :
    (xs.map Lineobj.mkLine).flatMap (fun l => l.text :: get_config l.subs) = xs := by
  induction xs with
  | nil => rfl
  | cons x xs ih =>
    rw [List.map_cons, List.flatMap_cons, ih]
    rfl

theorem sortNodes_map_mkLine (es : List String) :
    sortNodes (es.map Lineobj.mkLine) = (sortStrings es).map Lineobj.mkLine := by
  rw [sortNodes, sortStrings]
  symm
  apply List.map_insertionSort
  intro a _ b _
  exact Iff.rfl

theorem get_config_leaves (es : List String) :
    get_config (es.map Lineobj.mkLine) = sortStrings es := by
  rw [get_config_eq, sortNodes_map_mkLine, flatMap_mkLine]

theorem get_config_single (t : String) (ind : Nat) (σ : List Lineobj) :
    get_config [⟨t, ind, σ⟩] = t :: get_config σ := by
  rw [get_config_eq]
  rw [show sortNodes [(⟨t, ind, σ⟩ : Lineobj)] = [⟨t, ind, σ⟩] from rfl]
  simp

theorem mem_sortStrings {l : List String} {x : String} : x ∈ sortStrings l ↔ x ∈ l :=
  List.mem_insertionSort strLe

/-- Special case of the duplicate-merge behaviour for two flat child
runs, each of uniform positive indent: the merged block is exactly the
sorted first-occurrence-deduplicated union of the two child runs. -/
theorem duplicate_merge_flat (t : String) (c1 c2 : List String) (d1 d2 : Nat)
    (htb : isBlank t = false) (hts : startsWithSpace t = false)
    (hd1 : 0 < d1) (hd2 : 0 < d2)
    (hc1 : ∀ l ∈ c1, pyIndent l = d1 ∧ isBlank l = false)
    (hc2 : ∀ l ∈ c2, pyIndent l = d2 ∧ isBlank l = false) :
    sort_config (t :: c1 ++ t :: c2) = t :: sortStrings (dedupKeepFirst (c1 ++ c2)) ∧
    (sort_config (t :: c1 ++ t :: c2)).count t = 1 := by
  have hmkt : Lineobj.mkLine t = ⟨t, 0, []⟩ := by
    rw [Lineobj.mkLine, pyIndent_eq_zero t hts]
  have hstep1 : step ⟨[], []⟩ t = ⟨[⟨t, 0, []⟩], [(⟨t, 0, []⟩, 0)]⟩ := by
    rw [step_top ⟨[], []⟩ t htb hts]
    simp [flushStack, registryLookupInsert, hmkt]
  obtain ⟨s1, hfold1, hmid1⟩ := foldChildren t d1 hd1 [⟨t, 0, []⟩] c1 hc1 []
    (by intro n hn; cases hn) [(⟨t, 0, []⟩, 0)] (Or.inl rfl)
  have hσ1 : ∀ n ∈ addLeaves [] c1, n.indent = pyIndent n.text :=
    addLeaves_indent_inv c1 [] (by intro n hn; cases hn)
  have hflush1 : flushStack [⟨t, 0, []⟩] s1 = [⟨t, 0, addLeaves [] c1⟩] :=
    flush_midStack t d1 (addLeaves [] c1) s1 hmid1 ⟨t, 0, []⟩
  have hstep2 : step ⟨[⟨t, 0, []⟩], s1⟩ t =
      ⟨[⟨t, 0, addLeaves [] c1⟩], [(⟨t, 0, addLeaves [] c1⟩, 0)]⟩ := by
    rw [step_top _ t htb hts]
    show (⟨(registryLookupInsert (flushStack [⟨t, 0, []⟩] s1) t).1, _⟩ : BState) = _
    rw [hflush1]
    simp [registryLookupInsert]
  obtain ⟨s2, hfold2, hmid2⟩ := foldChildren t d2 hd2 [⟨t, 0, addLeaves [] c1⟩] c2 hc2
    (addLeaves [] c1) hσ1 [(⟨t, 0, addLeaves [] c1⟩, 0)] (Or.inl rfl)
  have hrun : runBuild (t :: c1 ++ t :: c2) = ⟨[⟨t, 0, addLeaves [] c1⟩], s2⟩ := by
    show List.foldl step ⟨[], []⟩ (t :: (c1 ++ t :: c2)) = _
    rw [List.foldl_cons, hstep1, List.foldl_append, hfold1, List.foldl_cons, hstep2, hfold2]
  have hforest : buildForest (t :: c1 ++ t :: c2) = [⟨t, 0, addLeaves [] (c1 ++ c2)⟩] := by
    show flushStack (runBuild (t :: c1 ++ t :: c2)).registry
      (runBuild (t :: c1 ++ t :: c2)).stack = _
    rw [hrun]
    show flushStack [⟨t, 0, addLeaves [] c1⟩] s2 = _
    rw [flush_midStack t d2 (addLeaves (addLeaves [] c1) c2) s2 hmid2 ⟨t, 0, addLeaves [] c1⟩]
    rw [addLeaves_append]
  have hσ2 : addLeaves [] (c1 ++ c2) = (dedupKeepFirst (c1 ++ c2)).map Lineobj.mkLine := by
    have h := addLeaves_eq_dedup (c1 ++ c2) []
    simpa [dedupKeepFirst] using h
  have hout : sort_config (t :: c1 ++ t :: c2) =
      t :: sortStrings (dedupKeepFirst (c1 ++ c2)) := by
    show get_config (buildForest (t :: c1 ++ t :: c2)) = _
    rw [hforest, hσ2, get_config_single, get_config_leaves]
  refine ⟨hout, ?_⟩
  rw [hout]
  have hnot : t ∉ sortStrings (dedupKeepFirst (c1 ++ c2)) := by
    intro hmem
    have hmem2 : t ∈ c1 ++ c2 := dedupSeen_sub _ _ t (mem_sortStrings.mp hmem)
    have hpos : 0 < pyIndent t := by
      rcases List.mem_append.mp hmem2 with h | h
      · rw [(hc1 t h).1]; exact hd1
      · rw [(hc2 t h).1]; exact hd2
    rw [(startsWithSpace_iff_pos t).mpr hpos] at hts
    cases hts
  rw [List.count_cons_self, List.count_eq_zero.mpr hnot]

theorem botFrame_nil (tx : String) (k : Nat) : BotFrame tx k [] = False := rfl

theorem botFrame_single (tx : String) (k : Nat) (n : Lineobj) (j : Nat) :
    BotFrame tx k [(n, j)] = (j = k ∧ n.text = tx ∧ n.indent = 0) := rfl

theorem botFrame_cons_cons (tx : String) (k : Nat) (f g : Lineobj × Nat)
    (r : List (Lineobj × Nat)) :
    BotFrame tx k (f :: g :: r) = BotFrame tx k (g :: r) := rfl

theorem shiftBot_nil (d : Nat) : shiftBot d [] = [] := rfl

theorem shiftBot_single (d : Nat) (n : Lineobj) (j : Nat) :
    shiftBot d [(n, j)] = [(n, j + d)] := rfl

theorem shiftBot_cons_cons (d : Nat) (f g : Lineobj × Nat) (r : List (Lineobj × Nat)) :
    shiftBot d (f :: g :: r) = f :: shiftBot d (g :: r) := rfl

theorem insertAux_botFrame (l : Lineobj) (hl : 0 < l.indent) :
    ∀ (rest : List (Lineobj × Nat)) (n : Lineobj) (i : Nat) (tx : String) (k : Nat),
      BotFrame tx k ((n, i) :: rest) →
      ∃ s', BotFrame tx k s' ∧ ∀ reg, insertAux l reg n i rest = (reg, s') := by
  intro rest
  induction rest with
  | nil =>
    intro n i tx k hb
    rw [botFrame_single] at hb
    obtain ⟨hi, htx, hind⟩ := hb
    have hnle : ¬ l.indent ≤ n.indent := by rw [hind]; omega
    refine ⟨((n.add_sub l).2.1, (n.add_sub l).2.2) :: ((n.add_sub l).1, i) :: [], ?_, ?_⟩
    · rw [botFrame_cons_cons, botFrame_single]
      exact ⟨hi, htx, hind⟩
    · intro reg
      exact insertAux_push l reg n i [] hnle
  | cons pj r ih =>
    obtain ⟨p, j⟩ := pj
    intro n i tx k hb
    rw [botFrame_cons_cons] at hb
    by_cases hle : l.indent ≤ n.indent
    · have hb' : BotFrame tx k ((⟨p.text, p.indent, p.subs.set i n⟩, j) :: r) := by
        cases r with
        | nil =>
          rw [botFrame_single] at hb ⊢
          exact hb
        | cons g r' =>
          rw [botFrame_cons_cons] at hb ⊢
          exact hb
      obtain ⟨s', hs', hall⟩ := ih _ j tx k hb'
      refine ⟨s', hs', ?_⟩
      intro reg
      rw [insertAux_pop_cons l reg n i p j r hle]
      exact hall reg
    · refine ⟨((n.add_sub l).2.1, (n.add_sub l).2.2) :: ((n.add_sub l).1, i) :: (p, j) :: r,
        ?_, ?_⟩
      · rw [botFrame_cons_cons, botFrame_cons_cons]
        exact hb
      · intro reg
        exact insertAux_push l reg n i ((p, j) :: r) hle

theorem insert_sub_botFrame (l : Lineobj) (hl : 0 < l.indent) (s : List (Lineobj × Nat))
    (tx : String) (k : Nat) (hb : BotFrame tx k s) :
    ∃ s', BotFrame tx k s' ∧ ∀ reg, insert_sub ⟨reg, s⟩ l = ⟨reg, s'⟩ := by
  cases s with
  | nil =>
    rw [botFrame_nil] at hb
    cases hb
  | cons ni rest =>
    obtain ⟨n, i⟩ := ni
    obtain ⟨s', hs', hall⟩ := insertAux_botFrame l hl rest n i tx k hb
    refine ⟨s', hs', ?_⟩
    intro reg
    show (⟨(insertAux l reg n i rest).1, (insertAux l reg n i rest).2⟩ : BState) = _
    rw [hall reg]

theorem step_botFrame (line : String) (h1 : isBlank line = false)
    (h2 : startsWithSpace line = true) (s : List (Lineobj × Nat)) (tx : String) (k : Nat)
    (hb : BotFrame tx k s) :
    ∃ s', BotFrame tx k s' ∧ ∀ reg, step ⟨reg, s⟩ line = ⟨reg, s'⟩ := by
  have hpos : 0 < (Lineobj.mkLine line).indent := (startsWithSpace_iff_pos line).mp h2
  obtain ⟨s', hs', hall⟩ := insert_sub_botFrame (Lineobj.mkLine line) hpos s tx k hb
  refine ⟨s', hs', fun reg => ?_⟩
  rw [step_space ⟨reg, s⟩ line h1 h2]
  exact hall reg

theorem foldl_step_botFrame (cs : List String) :
    (∀ l ∈ cs, startsWithSpace l = true ∧ isBlank l = false) →
    ∀ (s : List (Lineobj × Nat)) (tx : String) (k : Nat), BotFrame tx k s →
      ∃ s', BotFrame tx k s' ∧ ∀ reg, List.foldl step ⟨reg, s⟩ cs = ⟨reg, s'⟩ := by
  induction cs with
  | nil =>
    intro _ s tx k hb
    exact ⟨s, hb, fun reg => rfl⟩
  | cons c cs ih =>
    intro hcs s tx k hb
    obtain ⟨hcS, hcB⟩ := hcs c (List.mem_cons_self c cs)
    obtain ⟨s1, hb1, hstep⟩ := step_botFrame c hcB hcS s tx k hb
    obtain ⟨s2, hb2, hfold⟩ := ih (fun x hx => hcs x (List.mem_cons_of_mem c hx)) s1 tx k hb1
    refine ⟨s2, hb2, fun reg => ?_⟩
    rw [List.foldl_cons, hstep reg, hfold reg]

theorem flushAux_botFrame :
    ∀ (rest : List (Lineobj × Nat)) (n : Lineobj) (i : Nat) (tx : String) (k : Nat),
      BotFrame tx k ((n, i) :: rest) →
      ∃ N : Lineobj, N.text = tx ∧ N.indent = 0 ∧
        ∀ reg, flushAux reg n i rest = reg.set k N := by
  intro rest
  induction rest with
  | nil =>
    intro n i tx k hb
    rw [botFrame_single] at hb
    obtain ⟨hi, htx, hind⟩ := hb
    subst hi
    exact ⟨n, htx, hind, fun reg => by rw [flushAux]⟩
  | cons pj r ih =>
    obtain ⟨p, j⟩ := pj
    intro n i tx k hb
    rw [botFrame_cons_cons] at hb
    have hb' : BotFrame tx k ((⟨p.text, p.indent, p.subs.set i n⟩, j) :: r) := by
      cases r with
      | nil =>
        rw [botFrame_single] at hb ⊢
        exact hb
      | cons g r' =>
        rw [botFrame_cons_cons] at hb ⊢
        exact hb
    obtain ⟨N, h1, h2, hall⟩ := ih _ j tx k hb'
    refine ⟨N, h1, h2, fun reg => ?_⟩
    rw [flushAux]
    exact hall reg

theorem flushStack_botFrame (s : List (Lineobj × Nat)) (tx : String) (k : Nat)
    (hb : BotFrame tx k s) :
    ∃ N : Lineobj, N.text = tx ∧ N.indent = 0 ∧ ∀ reg, flushStack reg s = reg.set k N := by
  cases s with
  | nil =>
    rw [botFrame_nil] at hb
    cases hb
  | cons ni rest =>
    obtain ⟨n, i⟩ := ni
    obtain ⟨N, h1, h2, hall⟩ := flushAux_botFrame rest n i tx k hb
    exact ⟨N, h1, h2, fun reg => hall reg⟩

theorem insertAux_shift (l : Lineobj) (w : Lineobj) :
    ∀ (rest : List (Lineobj × Nat)) (n : Lineobj) (i : Nat) (reg : List Lineobj),
      insertAux l (w :: reg) n (if rest.isEmpty then i + 1 else i) (shiftBot 1 rest) =
        (w :: (insertAux l reg n i rest).1, shiftBot 1 (insertAux l reg n i rest).2) := by
  intro rest
  induction rest with
  | nil =>
    intro n i reg
    simp only [List.isEmpty_nil, if_true, shiftBot_nil]
    by_cases hle : l.indent ≤ n.indent
    · rw [insertAux_pop_nil l (w :: reg) n (i + 1) hle, insertAux_pop_nil l reg n i hle]
      rfl
    · rw [insertAux_push l (w :: reg) n (i + 1) [] hle, insertAux_push l reg n i [] hle]
      rfl
  | cons pj r ih =>
    obtain ⟨p, j⟩ := pj
    intro n i reg
    simp only [List.isEmpty_cons, Bool.false_eq_true, if_false]
    cases r with
    | nil =>
      rw [show shiftBot 1 [(p, j)] = [(p, j + 1)] from rfl]
      by_cases hle : l.indent ≤ n.indent
      · rw [insertAux_pop_cons l (w :: reg) n i p (j + 1) [] hle,
          insertAux_pop_cons l reg n i p j [] hle]
        have h := ih ⟨p.text, p.indent, p.subs.set i n⟩ j reg
        simpa using h
      · rw [insertAux_push l (w :: reg) n i [(p, j + 1)] hle,
          insertAux_push l reg n i [(p, j)] hle]
        rfl
    | cons g r' =>
      rw [shiftBot_cons_cons]
      by_cases hle : l.indent ≤ n.indent
      · rw [insertAux_pop_cons l (w :: reg) n i p j (shiftBot 1 (g :: r')) hle,
          insertAux_pop_cons l reg n i p j (g :: r') hle]
        have h := ih ⟨p.text, p.indent, p.subs.set i n⟩ j reg
        simpa using h
      · rw [insertAux_push l (w :: reg) n i ((p, j) :: shiftBot 1 (g :: r')) hle,
          insertAux_push l reg n i ((p, j) :: g :: r') hle]
        rfl

theorem insert_sub_shift (l : Lineobj) (w : Lineobj) (reg : List Lineobj)
    (s : List (Lineobj × Nat)) :
    insert_sub ⟨w :: reg, shiftBot 1 s⟩ l =
      ⟨w :: (insert_sub ⟨reg, s⟩ l).registry, shiftBot 1 (insert_sub ⟨reg, s⟩ l).stack⟩ := by
  cases s with
  | nil => rfl
  | cons ni rest =>
    obtain ⟨n, i⟩ := ni
    cases rest with
    | nil =>
      have h := insertAux_shift l w [] n i reg
      simp only [List.isEmpty_nil, if_true, shiftBot_nil] at h
      show (⟨(insertAux l (w :: reg) n (i + 1) []).1,
        (insertAux l (w :: reg) n (i + 1) []).2⟩ : BState) = _
      rw [h]
      rfl
    | cons g r =>
      have h := insertAux_shift l w (g :: r) n i reg
      simp only [List.isEmpty_cons, Bool.false_eq_true, if_false] at h
      show (⟨(insertAux l (w :: reg) n i (shiftBot 1 (g :: r))).1,
        (insertAux l (w :: reg) n i (shiftBot 1 (g :: r))).2⟩ : BState) = _
      rw [h]
      rfl

theorem flushAux_shift (w : Lineobj) :
    ∀ (rest : List (Lineobj × Nat)) (n : Lineobj) (i : Nat) (reg : List Lineobj),
      flushAux (w :: reg) n (if rest.isEmpty then i + 1 else i) (shiftBot 1 rest) =
        w :: flushAux reg n i rest := by
  intro rest
  induction rest with
  | nil =>
    intro n i reg
    simp only [List.isEmpty_nil, if_true, shiftBot_nil]
    rw [flushAux, flushAux]
    rfl
  | cons pj r ih =>
    obtain ⟨p, j⟩ := pj
    intro n i reg
    simp only [List.isEmpty_cons, Bool.false_eq_true, if_false]
    cases r with
    | nil =>
      rw [show shiftBot 1 [(p, j)] = [(p, j + 1)] from rfl]
      show flushAux (w :: reg) ⟨p.text, p.indent, p.subs.set i n⟩ (j + 1) [] =
        w :: flushAux reg ⟨p.text, p.indent, p.subs.set i n⟩ j []
      have h := ih ⟨p.text, p.indent, p.subs.set i n⟩ j reg
      simpa using h
    | cons g r' =>
      rw [shiftBot_cons_cons]
      show flushAux (w :: reg) ⟨p.text, p.indent, p.subs.set i n⟩ j (shiftBot 1 (g :: r')) =
        w :: flushAux reg ⟨p.text, p.indent, p.subs.set i n⟩ j (g :: r')
      have h := ih ⟨p.text, p.indent, p.subs.set i n⟩ j reg
      simpa using h

theorem flushStack_shift (w : Lineobj) (reg : List Lineobj) (s : List (Lineobj × Nat)) :
    flushStack (w :: reg) (shiftBot 1 s) = w :: flushStack reg s := by
  cases s with
  | nil => rfl
  | cons ni rest =>
    obtain ⟨n, i⟩ := ni
    cases rest with
    | nil =>
      show flushAux (w :: reg) n (i + 1) [] = w :: flushAux reg n i []
      have h := flushAux_shift w [] n i reg
      simpa using h
    | cons g r =>
      rw [shiftBot_cons_cons]
      show flushAux (w :: reg) n i (shiftBot 1 (g :: r)) = w :: flushAux reg n i (g :: r)
      have h := flushAux_shift w (g :: r) n i reg
      simpa using h

theorem rli_shift (w : Lineobj) (reg : List Lineobj) (t : String) (h : w.text ≠ t) :
    registryLookupInsert (w :: reg) t =
      (w :: (registryLookupInsert reg t).1, (registryLookupInsert reg t).2.1,
        (registryLookupInsert reg t).2.2 + 1) := by
  have hw : (w.text == t) = false := beq_eq_false_iff_ne.mpr h
  simp only [registryLookupInsert, hw, Bool.false_eq_true, if_false]

theorem step_shift (line : String) (w : Lineobj)
    (hw : isBlank line = false → startsWithSpace line = false → line ≠ w.text)
    (reg : List Lineobj) (s : List (Lineobj × Nat)) :
    step ⟨w :: reg, shiftBot 1 s⟩ line =
      ⟨w :: (step ⟨reg, s⟩ line).registry, shiftBot 1 (step ⟨reg, s⟩ line).stack⟩ := by
  by_cases hb : isBlank line = true
  · rw [step_blank _ _ hb, step_blank _ _ hb]
  · have hb' : isBlank line = false := Bool.not_eq_true _ ▸ hb
    by_cases hs : startsWithSpace line = true
    · rw [step_space _ _ hb' hs, step_space _ _ hb' hs]
      exact insert_sub_shift (Lineobj.mkLine line) w reg s
    · have hs' : startsWithSpace line = false := Bool.not_eq_true _ ▸ hs
      have hne : w.text ≠ line := fun hx => (hw hb' hs') hx.symm
      rw [step_top _ _ hb' hs', step_top _ _ hb' hs']
      show (⟨(registryLookupInsert (flushStack (w :: reg) (shiftBot 1 s)) line).1,
        [((registryLookupInsert (flushStack (w :: reg) (shiftBot 1 s)) line).2.1,
          (registryLookupInsert (flushStack (w :: reg) (shiftBot 1 s)) line).2.2)]⟩ : BState) = _
      rw [flushStack_shift w reg s, rli_shift w (flushStack reg s) line hne]
      rfl

theorem foldl_step_shift (w : Lineobj) :
    ∀ ms : List String,
      (∀ l ∈ ms, isBlank l = false → startsWithSpace l = false → l ≠ w.text) →
      ∀ (reg : List Lineobj) (s : List (Lineobj × Nat)),
        List.foldl step ⟨w :: reg, shiftBot 1 s⟩ ms =
          ⟨w :: (List.foldl step ⟨reg, s⟩ ms).registry,
            shiftBot 1 (List.foldl step ⟨reg, s⟩ ms).stack⟩ := by
  intro ms
  induction ms with
  | nil =>
    intro _ reg s
    rfl
  | cons m ms ih =>
    intro hm reg s
    rw [List.foldl_cons, List.foldl_cons, step_shift m w (hm m (List.mem_cons_self m ms)) reg s]
    exact ih (fun x hx => hm x (List.mem_cons_of_mem m hx))
      (step ⟨reg, s⟩ m).registry (step ⟨reg, s⟩ m).stack

theorem memText_indent {x : String} {n : Lineobj} (hm : MemText x n) :
    Good n → n.indent ≤ pyIndent x := by
  induction hm with
  | here m =>
    intro hg
    exact le_of_eq (good_indent hg)
  | there x m s hs hmem ih =>
    intro hg
    exact le_trans (le_of_lt (good_subs_indent hg s hs)) (ih (good_subs_good hg s hs))

theorem not_mem_get_config_subs {x : String} {n : Lineobj} (hg : Good n)
    (hx : pyIndent x = 0) : x ∉ get_config n.subs := by
  intro hmem
  obtain ⟨s, hs, hmt⟩ := mem_getConfigFuel _ _ x hmem
  have h1 : n.indent < s.indent := good_subs_indent hg s hs
  have h2 : s.indent ≤ pyIndent x := memText_indent hmt (good_subs_good hg s hs)
  omega

theorem count_text_flatMap (x : String) (hx : pyIndent x = 0) :
    ∀ ns : List Lineobj, (∀ m ∈ ns, Good m) →
      (ns.flatMap fun l => l.text :: get_config l.subs).count x =
        (ns.map Lineobj.text).count x := by
  intro ns
  induction ns with
  | nil =>
    intro _
    rfl
  | cons m ms ih =>
    intro hg
    rw [List.flatMap_cons, List.map_cons, List.cons_append, List.count_cons, List.count_cons,
      List.count_append,
      List.count_eq_zero.mpr (not_mem_get_config_subs (hg m (List.mem_cons_self m ms)) hx),
      ih (fun y hy => hg y (List.mem_cons_of_mem m hy))]
    omega

theorem count_text_get_config (x : String) (hx : pyIndent x = 0) (ns : List Lineobj)
    (hg : ∀ m ∈ ns, Good m) :
    (get_config ns).count x = (ns.map Lineobj.text).count x := by
  rw [get_config_eq,
    count_text_flatMap x hx (sortNodes ns) (fun m hm => hg m (mem_sortNodes.mp hm))]
  exact List.Perm.count_eq (List.Perm.map Lineobj.text (sortNodes_perm ns)) x

theorem buildForest_nodup (L : List String) :
    ((buildForest L).map Lineobj.text).Nodup :=
  (stInv_flush (runBuild L) (runBuild_inv L)).1

theorem get_config_singleton (n : Lineobj) :
    get_config [n] = n.text :: get_config n.subs := by
  obtain ⟨t, i, σ⟩ := n
  exact get_config_single t i σ

/-- C3: if the input contains the same top-level line text twice — each
occurrence followed by an arbitrary run of indented child lines (nesting
allowed), with any block of other lines in between whose top-level lines
all differ from the duplicated text — then the two occurrences are merged
into the single first-seen registry node: the final forest is exactly the
merged node produced by the two occurrences alone (the second
occurrence's children accumulated, deduplicated by `add_sub`, into the
first-seen node) followed by the forest of the in-between block, the
duplicated line appears in the output exactly once, its emitted block is
the flattening of the merged node's children, and when the two child runs
are flat (uniform indent within each run) that block is precisely the
sorted first-occurrence-deduplicated union of the children of both
occurrences. -/
theorem sort_config_duplicate_merge (t : String) (c1 c2 mid : List String)
    (htb : isBlank t = false) (hts : startsWithSpace t = false)
    (hc1 : ∀ l ∈ c1, startsWithSpace l = true ∧ isBlank l = false)
    (hc2 : ∀ l ∈ c2, startsWithSpace l = true ∧ isBlank l = false)
    (hmid : ∀ l ∈ mid, isBlank l = false → startsWithSpace l = false → l ≠ t)
    (hmidhead : mid = [] ∨
      ∃ u r, mid = u :: r ∧ isBlank u = false ∧ startsWithSpace u = false) :
    ∃ n : Lineobj, n.text = t ∧ Good n ∧
      buildForest (t :: c1 ++ t :: c2) = [n] ∧
      buildForest (t :: c1 ++ mid ++ t :: c2) = n :: buildForest mid ∧
      sort_config (t :: c1 ++ t :: c2) = t :: get_config n.subs ∧
      (sort_config (t :: c1 ++ mid ++ t :: c2)).count t = 1 ∧
      (∀ d1 d2 : Nat, 0 < d1 → 0 < d2 →
        (∀ l ∈ c1, pyIndent l = d1) → (∀ l ∈ c2, pyIndent l = d2) →
        get_config n.subs = sortStrings (dedupKeepFirst (c1 ++ c2))) := by
  have hmkt : Lineobj.mkLine t = ⟨t, 0, []⟩ := by
    rw [Lineobj.mkLine, pyIndent_eq_zero t hts]
  have hstep1 : step ⟨[], []⟩ t = ⟨[⟨t, 0, []⟩], [(⟨t, 0, []⟩, 0)]⟩ := by
    rw [step_top ⟨[], []⟩ t htb hts]
    simp [flushStack, registryLookupInsert, hmkt]
  have hbot0 : BotFrame t 0 [((⟨t, 0, []⟩ : Lineobj), 0)] := by
    rw [botFrame_single]
    exact ⟨rfl, rfl, rfl⟩
  obtain ⟨s1, hbot1, hfold1⟩ := foldl_step_botFrame c1 hc1 [(⟨t, 0, []⟩, 0)] t 0 hbot0
  obtain ⟨N1, hN1t, hN1i, hflush1⟩ := flushStack_botFrame s1 t 0 hbot1
  have hflush1t : flushStack [(⟨t, 0, []⟩ : Lineobj)] s1 = [N1] := by
    rw [hflush1 [⟨t, 0, []⟩]]
    rfl
  have hrliN1 : ∀ Fm : List Lineobj,
      registryLookupInsert (N1 :: Fm) t = (N1 :: Fm, N1, 0) := by
    intro Fm
    have hb : (N1.text == t) = true := beq_iff_eq.mpr hN1t
    simp [registryLookupInsert, hb]
  have hbotN1 : BotFrame t 0 [(N1, 0)] := by
    rw [botFrame_single]
    exact ⟨rfl, hN1t, hN1i⟩
  obtain ⟨s2, hbot2, hfold2⟩ := foldl_step_botFrame c2 hc2 [(N1, 0)] t 0 hbotN1
  obtain ⟨N2, hN2t, hN2i, hflush2⟩ := flushStack_botFrame s2 t 0 hbot2
  have hstep2 : step ⟨[(⟨t, 0, []⟩ : Lineobj)], s1⟩ t = ⟨[N1], [(N1, 0)]⟩ := by
    rw [step_top _ t htb hts]
    show (⟨(registryLookupInsert (flushStack [(⟨t, 0, []⟩ : Lineobj)] s1) t).1, _⟩ :
      BState) = _
    rw [hflush1t, hrliN1 []]
  have hrunB : runBuild (t :: c1 ++ t :: c2) = ⟨[N1], s2⟩ := by
    show List.foldl step ⟨[], []⟩ (t :: (c1 ++ t :: c2)) = _
    rw [List.foldl_cons, hstep1, List.foldl_append, hfold1 [⟨t, 0, []⟩], List.foldl_cons,
      hstep2]
    exact hfold2 [N1]
  have hforestB : buildForest (t :: c1 ++ t :: c2) = [N2] := by
    show flushStack (runBuild (t :: c1 ++ t :: c2)).registry
      (runBuild (t :: c1 ++ t :: c2)).stack = _
    rw [hrunB]
    show flushStack [N1] s2 = _
    rw [hflush2 [N1]]
    rfl
  have hgoodN2 : Good N2 := by
    have h := buildForest_good (t :: c1 ++ t :: c2) N2
    rw [hforestB] at h
    exact h (List.mem_singleton_self N2)
  have houtB : sort_config (t :: c1 ++ t :: c2) = t :: get_config N2.subs := by
    show get_config (buildForest (t :: c1 ++ t :: c2)) = _
    rw [hforestB, get_config_singleton, hN2t]
  have hforestA : buildForest (t :: c1 ++ mid ++ t :: c2) = N2 :: buildForest mid := by
    rw [List.append_assoc]
    rcases hmidhead with hmide | ⟨u, r, hmidE, hub, hus⟩
    · subst hmide
      show buildForest (t :: c1 ++ t :: c2) = N2 :: buildForest []
      rw [hforestB]
      rfl
    · subst hmidE
      have huneq : u ≠ t := hmid u (List.mem_cons_self u r) hub hus
      have hmku : Lineobj.mkLine u = ⟨u, 0, []⟩ := by
        rw [Lineobj.mkLine, pyIndent_eq_zero u hus]
      have hneu : ∀ m ∈ [N1], m.text ≠ u := by
        intro m hm
        rw [List.mem_singleton.mp hm, hN1t]
        exact Ne.symm huneq
      have hstepu : step ⟨[(⟨t, 0, []⟩ : Lineobj)], s1⟩ u =
          ⟨[N1, ⟨u, 0, []⟩], [(⟨u, 0, []⟩, 1)]⟩ := by
        rw [step_top _ u hub hus]
        show (⟨(registryLookupInsert (flushStack [(⟨t, 0, []⟩ : Lineobj)] s1) u).1, _⟩ :
          BState) = _
        rw [hflush1t, rli_fresh [N1] u hneu, hmku]
        rfl
      have hstepu0 : step ⟨[], []⟩ u = ⟨[⟨u, 0, []⟩], [(⟨u, 0, []⟩, 0)]⟩ := by
        rw [step_top ⟨[], []⟩ u hub hus]
        simp [flushStack, registryLookupInsert, hmku]
      have hmidrun : List.foldl step
          ⟨[(⟨u, 0, []⟩ : Lineobj)], [((⟨u, 0, []⟩ : Lineobj), 0)]⟩ r = runBuild (u :: r) := by
        show _ = List.foldl step ⟨[], []⟩ (u :: r)
        rw [List.foldl_cons, hstepu0]
      have hshift : List.foldl step ⟨[N1, ⟨u, 0, []⟩], [((⟨u, 0, []⟩ : Lineobj), 1)]⟩ r =
          ⟨N1 :: (runBuild (u :: r)).registry, shiftBot 1 (runBuild (u :: r)).stack⟩ := by
        have h := foldl_step_shift N1 r
          (fun l hl h1 h2 => by rw [hN1t]; exact hmid l (List.mem_cons_of_mem u hl) h1 h2)
          [⟨u, 0, []⟩] [(⟨u, 0, []⟩, 0)]
        rw [hmidrun] at h
        exact h
      have hflushm : flushStack (N1 :: (runBuild (u :: r)).registry)
          (shiftBot 1 (runBuild (u :: r)).stack) = N1 :: buildForest (u :: r) := by
        rw [flushStack_shift]
        rfl
      have hstept2 : step ⟨N1 :: (runBuild (u :: r)).registry,
          shiftBot 1 (runBuild (u :: r)).stack⟩ t =
          ⟨N1 :: buildForest (u :: r), [(N1, 0)]⟩ := by
        rw [step_top _ t htb hts]
        show (⟨(registryLookupInsert (flushStack (N1 :: (runBuild (u :: r)).registry)
          (shiftBot 1 (runBuild (u :: r)).stack)) t).1, _⟩ : BState) = _
        rw [hflushm, hrliN1 (buildForest (u :: r))]
      have hrunA : runBuild (t :: c1 ++ ((u :: r) ++ t :: c2)) =
          ⟨N1 :: buildForest (u :: r), s2⟩ := by
        show List.foldl step ⟨[], []⟩ (t :: (c1 ++ ((u :: r) ++ t :: c2))) = _
        rw [List.foldl_cons, hstep1, List.foldl_append, hfold1 [⟨t, 0, []⟩],
          List.foldl_append]
        rw [show List.foldl step ⟨[(⟨t, 0, []⟩ : Lineobj)], s1⟩ (u :: r) =
            ⟨N1 :: (runBuild (u :: r)).registry, shiftBot 1 (runBuild (u :: r)).stack⟩ from by
          rw [List.foldl_cons, hstepu, hshift]]
        rw [List.foldl_cons, hstept2]
        exact hfold2 (N1 :: buildForest (u :: r))
      show flushStack (runBuild (t :: c1 ++ ((u :: r) ++ t :: c2))).registry
        (runBuild (t :: c1 ++ ((u :: r) ++ t :: c2))).stack = _
      rw [hrunA]
      show flushStack (N1 :: buildForest (u :: r)) s2 = _
      rw [hflush2 (N1 :: buildForest (u :: r))]
      rfl
  have hcount : (sort_config (t :: c1 ++ mid ++ t :: c2)).count t = 1 := by
    have hgood := buildForest_good (t :: c1 ++ mid ++ t :: c2)
    rw [hforestA] at hgood
    have hnd := buildForest_nodup (t :: c1 ++ mid ++ t :: c2)
    rw [hforestA, List.map_cons] at hnd
    have hnotin : t ∉ (buildForest mid).map Lineobj.text := by
      have h := (List.nodup_cons.mp hnd).1
      rw [hN2t] at h
      exact h
    show (get_config (buildForest (t :: c1 ++ mid ++ t :: c2))).count t = 1
    rw [hforestA, count_text_get_config t (pyIndent_eq_zero t hts) _ hgood, List.map_cons,
      hN2t, List.count_cons_self, List.count_eq_zero.mpr hnotin]
  refine ⟨N2, hN2t, hgoodN2, hforestB, hforestA, houtB, hcount, ?_⟩
  intro d1 d2 hd1 hd2 hp1 hp2
  have hflat := duplicate_merge_flat t c1 c2 d1 d2 htb hts hd1 hd2
    (fun l hl => ⟨hp1 l hl, (hc1 l hl).2⟩) (fun l hl => ⟨hp2 l hl, (hc2 l hl).2⟩)
  exact List.tail_eq_of_cons_eq (houtB.symm.trans hflat.1)

/-- C3 witness: `interface eth 3` occurs twice with the whole
`interface eth 1` block (a different top-level line plus its children) in
between; the two occurrences merge into the single first-seen node, that
line is emitted exactly once, and the merged block is the sorted
deduplicated union of the children of both occurrences. -/
theorem sort_config_duplicate_merge_witness :
    ∃ n : Lineobj, n.text = "interface eth 3" ∧ Good n ∧
      buildForest ("interface eth 3" :: ["  load interval 5"] ++ "interface eth 3" ::
        ["  ip address 3.3.3.3/32"]) = [n] ∧
      buildForest ("interface eth 3" :: ["  load interval 5"] ++
        ["interface eth 1", "  ip address 1.1.1.1/32", "  description \"eth1 rules\"",
          "  load interval 5"] ++ "interface eth 3" :: ["  ip address 3.3.3.3/32"]) =
        n :: buildForest ["interface eth 1", "  ip address 1.1.1.1/32",
          "  description \"eth1 rules\"", "  load interval 5"] ∧
      sort_config ("interface eth 3" :: ["  load interval 5"] ++ "interface eth 3" ::
        ["  ip address 3.3.3.3/32"]) = "interface eth 3" :: get_config n.subs ∧
      (sort_config ("interface eth 3" :: ["  load interval 5"] ++
        ["interface eth 1", "  ip address 1.1.1.1/32", "  description \"eth1 rules\"",
          "  load interval 5"] ++ "interface eth 3" ::
        ["  ip address 3.3.3.3/32"])).count "interface eth 3" = 1 ∧
      (∀ d1 d2 : Nat, 0 < d1 → 0 < d2 →
        (∀ l ∈ ["  load interval 5"], pyIndent l = d1) →
        (∀ l ∈ ["  ip address 3.3.3.3/32"], pyIndent l = d2) →
        get_config n.subs = sortStrings (dedupKeepFirst
          (["  load interval 5"] ++ ["  ip address 3.3.3.3/32"]))) :=
  sort_config_duplicate_merge "interface eth 3" ["  load interval 5"]
    ["  ip address 3.3.3.3/32"]
    ["interface eth 1", "  ip address 1.1.1.1/32", "  description \"eth1 rules\"",
      "  load interval 5"]
    (by decide) (by decide) (by decide) (by decide) (by decide)
    (Or.inr ⟨"interface eth 1", ["  ip address 1.1.1.1/32", "  description \"eth1 rules\"",
      "  load interval 5"], rfl, by decide, by decide⟩)
